import Mathlib

/-!
A verification development for the ralph orchestrator's concurrency and
scheduling core.  The shell scripts (`ralph-claim.sh`, `ralph-lock.sh`,
`ralph-heartbeat.sh`, `ralph-merge-calculator.sh`, `ralph-decisions.sh` and the
budget part of `ralph-config.sh`) are shallowly embedded as pure Lean
functions over explicit state values; the jq programs inside those scripts are
translated operator by operator, including jq's `contains` (substring
containment for strings inside arrays), `index` (exact element search),
array subtraction, object update (`setA`/`getA` association lists mirroring
jq object write-or-append semantics) and the stability of jq's `sort_by`.

Timestamps are modelled as integers (seconds); ISO-8601 strings in the source
are in order- and difference-preserving correspondence with the epoch seconds
the scripts convert them to before any comparison.  Each embedded function
reads and writes exactly the documents the script names: in particular the
heartbeat reaper queries its stale candidates from the static catalog file
(`$PRD_FILE`) while releasing claims into the separate state file
(`$STATE_FILE`), as the source does.  The record structures below carry
exactly the fields each script touches.
-/

/-- Status strings stored in the `status` field of a feature record. -/
inductive FStatus where
  | pending
  | in_progress
  | completed
  | blocked
deriving DecidableEq, Repr

/-- `listLeads pat l` is true when `pat` is an initial segment of `l`.
Building block for jq's substring containment. -/
def listLeads : List Char → List Char → Bool
  | [], _ => true
  | _ :: _, [] => false
  | p :: ps, c :: cs => p == c && listLeads ps cs

/-- `listWithin pat l` is true when `pat` occurs contiguously inside `l`. -/
def listWithin : List Char → List Char → Bool
  | pat, [] => pat.isEmpty
  | pat, c :: cs => listLeads pat (c :: cs) || listWithin pat cs

/-- `strWithin pat s`: `pat` is a substring of `s`.  This is jq's
`contains` on strings and awk's `$1 ~ today` match for a literal pattern. -/
def strWithin (pat s : String) : Bool :=
  listWithin pat.data s.data

/-- jq `$arr | contains([$x])` for an array of strings: some element of
`arr` has `x` as a substring.  This is NOT exact membership. -/
def jqArrContains (arr : List String) (x : String) : Bool :=
  arr.any (fun p => strWithin x p)

/-- jq `$arr | index($x) != null` for an array of strings: exact membership. -/
def jqArrIndex (arr : List String) (x : String) : Bool :=
  arr.contains x

/-- jq `deps - $completed | length == 0`: every element of `deps` occurs in
`completed` (array subtraction removes exactly the elements of `completed`). -/
def depsMet (deps completed : List String) : Bool :=
  deps.all (fun d => completed.contains d)

/-- Stable insertion used to model jq's `sort_by`: `x` is placed after every
element with a strictly smaller key and before the first element whose key is
greater or equal, so elements with equal keys keep their input order. -/
def insSorted (key : α → Int) (x : α) : List α → List α
  | [] => [x]
  | y :: ys => if key y < key x then y :: insSorted key x ys else x :: y :: ys

/-- jq `sort_by(f)`: jq's sort compares the projected keys and breaks ties by
original index, i.e. it is the (unique) stable sort by `key`; this insertion
sort is stable and sorted by `key`, hence extensionally equal to it. -/
def jqSortBy (key : α → Int) : List α → List α
  | [] => []
  | x :: xs => insSorted key x (jqSortBy key xs)

/-- First element of `l` attaining the minimal key: reference description of
`(jqSortBy key l).head?` used to state the tie-break behaviour. -/
def firstMinBy (key : α → Int) : List α → Option α
  | [] => none
  | x :: xs =>
    match firstMinBy key xs with
    | none => some x
    | some m => if key m < key x then some m else some x

namespace RalphClaim

/-- Static feature specification from the PRD catalog (`prd.json`):
`id`, `depends_on` and the scheduling `priority`. -/
structure FSpec where
  id : String
  depends_on : List String
  priority : Int
deriving DecidableEq, Repr

/-- Dynamic feature state record from the state document (`state.json`),
with exactly the mutable fields `ralph-claim.sh` touches. -/
structure FState where
  id : String
  status : FStatus
  claimed_by : Option String
  claimed_at : Option Int
  completed_at : Option Int
  pr_url : Option String
  branch : Option String
  blocked_reason : Option String
deriving DecidableEq, Repr

/-- `jq [.features[] | select(.status == "completed") | .id]` on the state. -/
def completedIds (st : List FState) : List String :=
  (st.filter (fun r => r.status == .completed)).map (fun r => r.id)

/-- `jq [.features[] | select(.status == "pending") | .id]` on the state. -/
def pendingIds (st : List FState) : List String :=
  (st.filter (fun r => r.status == .pending)).map (fun r => r.id)

/-- `jq .features[] | select(.id == $id) | .status` followed by the bash
string comparison: the status of the (first) record with the given id. -/
def statusOf (st : List FState) (fid : String) : Option FStatus :=
  (st.find? (fun r => r.id == fid)).map (fun r => r.status)

/-- The jq update
`(.features[] | select(.id == $id)) |= . + {status:"in_progress", claimed_by:$agent, claimed_at:$ts, branch:$branch}`
shared by `claim_feature` and `claim_next_feature`. -/
def claimUpdate (st : List FState) (fid agent : String) (ts : Int)
    (branch : String) : List FState :=
  st.map (fun r =>
    if r.id == fid then
      { r with status := .in_progress, claimed_by := some agent,
               claimed_at := some ts, branch := some branch }
    else r)

/-- `claim_feature` from `ralph-scripts/ralph-claim.sh` (the body inside the
`state-claim` lock): checks the current status is `pending`, checks the PRD
dependencies against the completed ids, and only then rewrites the state;
`none` is the failure exit (return 1) in which the state file is not written. -/
def claim_feature (prd : List FSpec) (st : List FState) (fid agent : String)
    (ts : Int) (pfx : String) : Option (List FState) :=
  if statusOf st fid ≠ some .pending then none
  else
    match prd.find? (fun f => f.id == fid) with
    | none => none
    | some f =>
      if depsMet f.depends_on (completedIds st) then
        some (claimUpdate st fid agent ts (pfx ++ "/" ++ fid))
      else none

/-- The candidate filter of `claim_next_feature`:
`.features[] | select(.id as $id | $pending | contains([$id])) | select((.depends_on // []) - $completed | length == 0)`
over the PRD.  Note the `contains` (substring) membership test. -/
def claimCandidates (prd : List FSpec) (st : List FState) : List FSpec :=
  prd.filter (fun f =>
    jqArrContains (pendingIds st) f.id && depsMet f.depends_on (completedIds st))

/-- `get_claimable_features` from `ralph-scripts/ralph-claim.sh`: ids of the
candidate features, in PRD order. -/
def get_claimable_features (prd : List FSpec) (st : List FState) : List String :=
  (claimCandidates prd st).map (fun f => f.id)

/-- The selection step of `claim_next_feature`:
`[...candidates...] | sort_by(.priority) | first | .id // empty`. -/
def claimNextSelect (prd : List FSpec) (st : List FState) : Option FSpec :=
  (jqSortBy (fun f => f.priority) (claimCandidates prd st)).head?

/-- `claim_next_feature` from `ralph-scripts/ralph-claim.sh` (body inside the
`state-claim` lock): picks the first candidate after the stable
`sort_by(.priority)` and rewrites the state; `none` is the
"No claimable features available" failure exit. -/
def claim_next_feature (prd : List FSpec) (st : List FState) (agent : String)
    (ts : Int) (pfx : String) : Option (String × List FState) :=
  match claimNextSelect prd st with
  | none => none
  | some f => some (f.id, claimUpdate st f.id agent ts (pfx ++ "/" ++ f.id))

/-- `release_claim`: unconditionally rewrites the record to
`{status:"pending", claimed_by:null, claimed_at:null}` and returns 0. -/
def release_claim (st : List FState) (fid : String) : List FState :=
  st.map (fun r =>
    if r.id == fid then
      { r with status := .pending, claimed_by := none, claimed_at := none }
    else r)

/-- The (first) state record carrying a given feature id. -/
def recordOf (st : List FState) (fid : String) : Option FState :=
  st.find? (fun r => r.id == fid)

/-- `complete_feature`: unconditionally rewrites the record to
`{status:"completed", completed_at:$ts, pr_url:$pr}` and returns 0. -/
def complete_feature (st : List FState) (fid : String) (ts : Int)
    (pr : String) : List FState :=
  st.map (fun r =>
    if r.id == fid then
      { r with status := .completed, completed_at := some ts, pr_url := some pr }
    else r)

end RalphClaim

namespace P4

open RalphClaim

/-- `get_claimable_features` from the near-duplicate copy `src/unnamed/part_004`:
a jq pre-filter `(.id as $id | $completed | index($id) | not) and deps met`
over the PRD, followed by the bash `while read` loop that re-checks
`status == "pending"` in the state file for each surviving id. -/
def get_claimable_features (prd : List FSpec) (st : List FState) : List String :=
  ((prd.filter (fun f =>
      !(jqArrIndex (completedIds st) f.id)
        && depsMet f.depends_on (completedIds st))).map (fun f => f.id)).filter
    (fun fid => statusOf st fid == some .pending)

/-- The candidate filter of `part_004`'s `claim_next_feature`:
`select(.id as $id | $pending | index($id))` — exact membership, unlike the
`contains` of the `ralph-scripts` copy. -/
def claimCandidates (prd : List FSpec) (st : List FState) : List FSpec :=
  prd.filter (fun f =>
    jqArrIndex (pendingIds st) f.id && depsMet f.depends_on (completedIds st))

/-- Selection step of `part_004`'s `claim_next_feature`. -/
def claimNextSelect (prd : List FSpec) (st : List FState) : Option FSpec :=
  (jqSortBy (fun f => f.priority) (claimCandidates prd st)).head?

/-- `claim_next_feature` from `src/unnamed/part_004`; the state update is the
same jq program as in the `ralph-scripts` copy. -/
def claim_next_feature (prd : List FSpec) (st : List FState) (agent : String)
    (ts : Int) (pfx : String) : Option (String × List FState) :=
  match claimNextSelect prd st with
  | none => none
  | some f => some (f.id, claimUpdate st f.id agent ts (pfx ++ "/" ++ f.id))

end P4

namespace Heartbeat

open RalphClaim

/-- `is_agent_alive` from `src/unnamed/part_003` (`ralph-heartbeat.sh`):
`hb agent` is the parsed timestamp of the agent's heartbeat file, `none` when
the file is missing or unparseable (the script then substitutes epoch 0,
making the age enormous, i.e. stale).  Alive means the age is NOT strictly
greater than `STALE_CLAIM_THRESHOLD`. -/
def is_agent_alive (hb : String → Option Int) (now threshold : Int)
    (agent : String) : Bool :=
  match hb agent with
  | none => false
  | some t => !(now - t > threshold)

/-- The fields the stale-claim jq query of `release_stale_claims` reads from
a record of the document it runs on.  That document is `$PRD_FILE` — the
STATIC catalog — not the state file, so each field is optional: a plain
catalog feature (id, name, depends_on, priority, ...) carries none of
`status`, `claimed_at`, `claimed_by`, and jq yields null for them. -/
structure PrdFeature where
  id : String
  status : Option FStatus
  claimed_at : Option Int
  claimed_by : Option String
deriving DecidableEq, Repr

/-- The jq stale-claim query of `release_stale_claims`, run on `$PRD_FILE`:
records with `status == "in_progress"`, non-null `claimed_at`, and
`now - claimed_at > $threshold`, emitted as `(id, claimed_by)` pairs in
document order (`"\(.claimed_by)"` interpolates null as the string "null"). -/
def staleCandidates (prd : List PrdFeature) (now threshold : Int) :
    List (String × String) :=
  (prd.filter (fun r =>
      r.status == some .in_progress && r.claimed_at.isSome
        && decide (now - r.claimed_at.getD 0 > threshold))).map
    (fun r => (r.id, r.claimed_by.getD "null"))

/-- `release_stale_claims` from `src/unnamed/part_003`: the stale candidates
are computed once, from the CATALOG document (`$PRD_FILE`), and for each
candidate whose agent fails the heartbeat double-check `release_claim` —
sourced from the claim module — rewrites the separate STATE document
(`$STATE_FILE`).  The two documents are distinct inputs, as in the source. -/
def release_stale_claims (prd : List PrdFeature) (st : List FState)
    (hb : String → Option Int) (now threshold : Int) : List FState :=
  (staleCandidates prd now threshold).foldl
    (fun acc p =>
      if is_agent_alive hb now threshold p.2 then acc
      else release_claim acc p.1)
    st

end Heartbeat

namespace Budget

/-- One line of the append-only cost ledger:
`timestamp,agent,feature,tokens_in,tokens_out,cost`. -/
structure CostEntry where
  ts : String
  agent : String
  feature : String
  tokens_in : Int
  tokens_out : Int
  cost : Rat
deriving DecidableEq, Repr

/-- `get_daily_cost` from `src/unnamed/part_002` (`ralph-config.sh`): awk sums
field 6 over the lines whose first field matches today's date
(`$1 ~ today`, a substring match of the literal `YYYY-MM-DD` pattern). -/
def get_daily_cost (ledger : List CostEntry) (today : String) : Rat :=
  (ledger.filter (fun e => strWithin today e.ts)).foldl (fun s e => s + e.cost) 0

/-- `check_budget` from `src/unnamed/part_002`: fails (returns 1) exactly when
`daily_total > MAX_DAILY_COST_USD` (bc `>` is strict); `true` is the
"within budget" exit 0. -/
def check_budget (ledger : List CostEntry) (today : String) (cap : Rat) : Bool :=
  if get_daily_cost ledger today > cap then false else true

end Budget

namespace Decisions

/-- Decision record statuses written by `ralph-decisions.sh`
(`src/unnamed/part_006`). -/
inductive DStatus where
  | pending
  | answered
  | timeout
  | expired
  | cancelled
deriving DecidableEq, Repr

/-- A decision record file, with the fields `answer_decision` reads/writes. -/
structure Decision where
  id : String
  question : String
  options : List String
  status : DStatus
  answer : Option String
  answered_by : Option String
  answered_at : Option Int
deriving DecidableEq, Repr

/-- `answer_decision` from `src/unnamed/part_006`: rejects unless the record's
status is `pending`; validates `answer` by `.options | index($answer) != null`
(exact membership); on success writes status `answered`, the answer, the
answerer and a timestamp.  `none` is the rejection exit (return 1), which
leaves the record file unwritten. -/
def answer_decision (d : Decision) (ans answerer : String) (now : Int) :
    Option Decision :=
  if d.status ≠ .pending then none
  else if !(jqArrIndex d.options ans) then none
  else
    some { d with status := .answered, answer := some ans,
                  answered_by := some answerer, answered_at := some now }

end Decisions

namespace RalphLock

/-- `release_lock` from `ralph-lock.sh` (concatenated inside
`ralph-scripts/ralph-linear.sh`), modelled over the set of existing lock
directories: if the directory exists it is removed (`rm -rf`) and the call
returns 0 (`true`); otherwise the script logs
"Lock directory not found" and returns 1 (`false`). -/
def release_lock (dirs : List String) (d : String) : Bool × List String :=
  if dirs.contains d then (true, dirs.filter (fun x => !(x == d)))
  else (false, dirs)

end RalphLock

namespace Merge

/-- Feature record as read by `ralph-merge-calculator.sh` from its single
document: id, dependency list, status. -/
structure MFeature where
  id : String
  depends_on : List String
  status : FStatus
deriving DecidableEq, Repr

/-- `[.features[] | select(.status == "completed")]` — the set S. -/
def completedF (fs : List MFeature) : List MFeature :=
  fs.filter (fun f => f.status == .completed)

/-- `$completed | map(.id)` — the completed ids, in document order. -/
def cids (fs : List MFeature) : List String :=
  (completedF fs).map (fun f => f.id)

/-- jq object read `.obj[$k]`: the value at key `k`, `null` when absent. -/
def getA (m : List (String × α)) (k : String) : Option α :=
  (m.find? (fun p => p.1 == k)).map (fun p => p.2)

/-- jq object write `.obj[$k] = v`: replace the binding when the key is
present, append it otherwise. -/
def setA (m : List (String × α)) (k : String) (v : α) : List (String × α) :=
  if m.any (fun p => p.1 == k) then
    m.map (fun p => if p.1 == k then (k, v) else p)
  else m ++ [(k, v)]

/-- The in-degree map built by the first jq `reduce`:
`.indegree[$f.id] = ([$f.depends_on[] | select($completed_ids | index(.))] | length)`
for each completed feature in document order. -/
def indegInit (fs : List MFeature) : List (String × Int) :=
  (completedF fs).foldl
    (fun m f =>
      setA m f.id
        ((f.depends_on.filter (fun d => (cids fs).contains d)).length : Int))
    []

/-- The reverse adjacency built by the nested jq `reduce`:
for each completed feature `f` and each of its deps `d` with
`$completed_ids | index(d)`, append `f.id` to `.adj[d]`. -/
def adjInit (fs : List MFeature) : List (String × List String) :=
  (completedF fs).foldl
    (fun m f =>
      f.depends_on.foldl
        (fun m2 d =>
          if (cids fs).contains d then
            setA m2 d ((getA m2 d).getD [] ++ [f.id])
          else m2)
        m)
    []

/-- `[.ids[] as $id | select(.indegree[$id] == 0) | $id]` — the seed queue. -/
def initQueue (fs : List MFeature) : List String :=
  (cids fs).filter (fun v => getA (indegInit fs) v == some (0 : Int))

/-- The mutable part of the jq Kahn loop state:
`{queue: ..., result: [], indegree: ...}`. -/
structure KState where
  queue : List String
  result : List String
  indeg : List (String × Int)
deriving Repr

/-- The inner jq `reduce (.adj[$node] // [])[] as $neighbor`: decrement the
neighbour's in-degree and enqueue it when the new value is exactly 0.
(jq guarantees the key is present — every adjacency target is a completed id
with an `indegree` entry — so the `getD 0` default is never consulted on
inputs the script produces.) -/
def relax (nbs : List String) (q : List String) (m : List (String × Int)) :
    List String × List (String × Int) :=
  nbs.foldl
    (fun acc nb =>
      let v := (getA acc.2 nb).getD 0 - 1
      (if v == 0 then acc.1 ++ [nb] else acc.1, setA acc.2 nb v))
    (q, m)

/-- The jq `until(.queue | length == 0; ...)` loop: pop the head of the queue,
append it to the result, relax its out-neighbours.  `fuel` bounds the number
of iterations; the caller passes `|S| + 1`, which suffices because each
iteration appends one element of S to the duplicate-free result (proved in
the invariant lemmas below), exactly matching the termination of jq's
unbounded `until` on the documents the script reads. -/
def kahnRun (adj : List (String × List String)) :
    Nat → KState → KState
  | 0, st => st
  | Nat.succ n, st =>
    match st.queue with
    | [] => st
    | node :: rest =>
      let pr := relax ((getA adj node).getD []) rest st.indeg
      kahnRun adj n ⟨pr.1, st.result ++ [node], pr.2⟩

/-- `calculate_merge_order` from `ralph-scripts/ralph-merge-calculator.sh`:
run Kahn's algorithm over the completed features and output `.result[]`. -/
def calculate_merge_order (fs : List MFeature) : List String :=
  (kahnRun (adjInit fs) ((cids fs).length + 1)
    ⟨initQueue fs, [], indegInit fs⟩).result

/-- The count printed by `echo "$order" | grep -c .` — the number of
non-empty output lines.  NOTE: this is only what grep prints; the variable
`order_count` is captured with a `|| echo 0` fallback whose effect
`validate_merge_order` below models. -/
def orderCount (fs : List MFeature) : Nat :=
  ((calculate_merge_order fs).filter (fun s => !(s == ""))).length

/-- `validate_merge_order` from `ralph-scripts/ralph-merge-calculator.sh`:
`order_count=$(echo "$order" | grep -c . || echo 0)` — when grep counts 0 it
prints `0` AND exits 1, so the `|| echo 0` fallback ALSO runs and the
captured variable is the two-line string "0\n0".  The subsequent
`[[ "$order_count" -ne "$completed_count" ]]` then raises a bash error
(status 2) on that operand, the failure branch is not taken, and the
function falls through to `return 0`: with an empty Kahn output the
validation reports success whatever the completed count.  When the output is
non-empty the capture is a proper number and the function fails (logging
"Circular dependency detected!") exactly when the counts differ. -/
def validate_merge_order (fs : List MFeature) : Bool :=
  if orderCount fs = 0 then true
  else orderCount fs == (completedF fs).length

/-- The (first) completed feature record with a given id. -/
def cFind (fs : List MFeature) (v : String) : Option MFeature :=
  (completedF fs).find? (fun f => f.id == v)

/-- The in-set dependencies of a completed id: the feature's `depends_on`
restricted to completed ids (with multiplicity, as the script counts them). -/
def depsOf (fs : List MFeature) (v : String) : List String :=
  match cFind fs v with
  | some f => f.depends_on.filter (fun d => (cids fs).contains d)
  | none => []

/-- The dependencies of `v` still unmet after the ids in `result` have been
popped: the quantity Kahn's in-degree counter tracks. -/
def remDeps (fs : List MFeature) (result : List String) (v : String) :
    List String :=
  (depsOf fs v).filter (fun d => !(result.contains d))

/-- The loop invariant of the embedded Kahn loop: the result and queue are
duplicate-free completed ids, the queue is disjoint from the result, every
in-degree entry counts the unpopped in-set dependencies, the queue holds
exactly the unpopped ids with no unpopped dependency, and the result is
topologically ordered. -/
def KInv (fs : List MFeature) (st : KState) : Prop :=
  st.result.Nodup ∧ (∀ v ∈ st.result, v ∈ cids fs) ∧
    st.queue.Nodup ∧ (∀ v ∈ st.queue, v ∈ cids fs) ∧
    (∀ v ∈ st.queue, v ∉ st.result) ∧
    (∀ v ∈ cids fs, getA st.indeg v = some ((remDeps fs st.result v).length : Int)) ∧
    (∀ v ∈ cids fs, (v ∈ st.queue ↔ v ∉ st.result ∧ remDeps fs st.result v = [])) ∧
    ∀ l1 v l2, st.result = l1 ++ v :: l2 → ∀ d ∈ depsOf fs v, d ∈ l1

/-- Edge `u ⟶ v` of the dependency graph restricted to the completed set:
`v` is a completed id whose feature depends on the completed id `u`
(so `u` must be merged before `v`). -/
def Edge (fs : List MFeature) (u v : String) : Prop :=
  u ∈ depsOf fs v ∧ v ∈ cids fs

/-- The dependency graph restricted to the completed set is acyclic: no id
reaches itself through one or more edges. -/
def AcyclicCompleted (fs : List MFeature) : Prop :=
  ¬ ∃ v, Relation.TransGen (Edge fs) v v

end Merge

/-! ## Generic list and string lemmas -/

theorem listLeads_self (l : List Char) : listLeads l l = true := by
  induction l with
  | nil => rfl
  | cons c cs ih => simp [listLeads, ih]

theorem strWithin_self (s : String) : strWithin s s = true := by
  unfold strWithin
  cases h : s.data with
  | nil => simp [listWithin, List.isEmpty]
  | cons c cs => simp [listWithin, ← h, listLeads_self]

theorem jqArrContains_of_mem {arr : List String} {x : String} (h : x ∈ arr) :
    jqArrContains arr x = true := by
  unfold jqArrContains
  exact List.any_eq_true.mpr ⟨x, h, strWithin_self x⟩

theorem find?_key_eq {α : Type _} (key : α → String) {l : List α}
    (hnd : (l.map key).Nodup) {r : α} (hr : r ∈ l) :
    l.find? (fun x => key x == key r) = some r := by
  induction l with
  | nil => cases hr
  | cons a as ih =>
    simp only [List.map_cons, List.nodup_cons] at hnd
    rcases List.mem_cons.mp hr with h | h
    · subst h
      simp [List.find?_cons_of_pos]
    · by_cases hk : key a = key r
      · exact absurd (hk ▸ List.mem_map_of_mem key h) hnd.1
      · rw [List.find?_cons_of_neg as (by simpa using hk)]
        exact ih hnd.2 h

theorem depsMet_iff {deps completed : List String} :
    depsMet deps completed = true ↔ ∀ d ∈ deps, d ∈ completed := by
  unfold depsMet
  simp [List.all_eq_true]

/-! ## Stable-sort lemmas: the head of jq's `sort_by` is the first minimum -/

theorem firstMinBy_eq_none {key : α → Int} {l : List α} :
    firstMinBy key l = none ↔ l = [] := by
  cases l with
  | nil => simp [firstMinBy]
  | cons x xs =>
    simp only [firstMinBy]
    cases firstMinBy key xs with
    | none => simp
    | some m =>
      by_cases h : key m < key x <;> simp [h]

theorem jqSortBy_head? (key : α → Int) (l : List α) :
    (jqSortBy key l).head? = firstMinBy key l := by
  induction l with
  | nil => rfl
  | cons x xs ih =>
    show (insSorted key x (jqSortBy key xs)).head? = _
    cases h : jqSortBy key xs with
    | nil =>
      have hmin : firstMinBy key xs = none := by rw [← ih, h]; rfl
      simp [insSorted, firstMinBy, hmin]
    | cons y ys =>
      have hmin : firstMinBy key xs = some y := by rw [← ih, h]; rfl
      simp only [insSorted, firstMinBy, hmin]
      by_cases hlt : key y < key x <;> simp [hlt]

theorem firstMinBy_spec [DecidableEq α] (key : α → Int) {l : List α} {f : α}
    (h : firstMinBy key l = some f) :
    f ∈ l ∧ (∀ g ∈ l, key f ≤ key g) ∧
      ∀ g ∈ l, key g = key f → l.indexOf f ≤ l.indexOf g := by
  induction l generalizing f with
  | nil => cases h
  | cons x xs ih =>
    cases hx : firstMinBy key xs with
    | none =>
      have hxs : xs = [] := firstMinBy_eq_none.mp hx
      subst hxs
      simp only [firstMinBy] at h
      cases h
      refine ⟨List.mem_singleton_self _, ?_, ?_⟩
      · intro g hg; rcases List.mem_singleton.mp hg with rfl; exact le_refl _
      · intro g hg _; rcases List.mem_singleton.mp hg with rfl; exact le_refl _
    | some m =>
      obtain ⟨hm_mem, hm_min, hm_first⟩ := ih hx
      simp only [firstMinBy, hx] at h
      by_cases hlt : key m < key x
      · rw [if_pos hlt] at h
        cases h
        refine ⟨List.mem_cons_of_mem _ hm_mem, ?_, ?_⟩
        · intro g hg
          rcases List.mem_cons.mp hg with rfl | hg
          · exact le_of_lt hlt
          · exact hm_min g hg
        · intro g hg hkey
          have hgx : g ≠ x := fun hgx => by
            rw [hgx] at hkey; exact absurd hkey (ne_of_gt hlt)
          have hfx : f ≠ x := fun hfx => by
            rw [hfx] at hlt; exact lt_irrefl _ hlt
          rcases List.mem_cons.mp hg with rfl | hg
          · exact absurd rfl hgx
          · rw [List.indexOf_cons_ne _ (fun hh => hfx hh.symm),
                List.indexOf_cons_ne _ (fun hh => hgx hh.symm)]
            exact Nat.succ_le_succ (hm_first g hg hkey)
      · rw [if_neg hlt] at h
        cases h
        refine ⟨List.mem_cons_self _ _, ?_, ?_⟩
        · intro g hg
          rcases List.mem_cons.mp hg with rfl | hg
          · exact le_refl _
          · exact le_trans (not_lt.mp hlt) (hm_min g hg)
        · intro g hg _
          rw [List.indexOf_cons_self]
          exact Nat.zero_le _

/-! ## Claim-module lemmas -/

namespace RalphClaim

theorem recordOf_eq_some_of_mem {st : List FState}
    (hnd : (st.map (fun r => r.id)).Nodup) {r : FState} (hr : r ∈ st) :
    recordOf st r.id = some r := by
  unfold recordOf
  exact find?_key_eq (fun x => x.id) hnd hr

theorem recordOf_id_eq {st : List FState} {v : String} {r : FState}
    (h : recordOf st v = some r) : r.id = v := by
  have := List.find?_some h
  simpa using this

theorem statusOf_eq_map (st : List FState) (v : String) :
    statusOf st v = (recordOf st v).map (fun r => r.status) := rfl

theorem recordOf_mapUpdate (st : List FState) (fid v : String)
    (u : FState → FState) (hu : ∀ r, (u r).id = r.id) :
    recordOf (st.map (fun r => if r.id == fid then u r else r)) v =
      (recordOf st v).map (fun r => if r.id == fid then u r else r) := by
  unfold recordOf
  rw [List.find?_map]
  have hp : ((fun (r : FState) => r.id == v) ∘
      fun r => if r.id == fid then u r else r) = fun r => r.id == v := by
    funext r
    by_cases h : r.id = fid
    · simp [h, hu]
    · simp [h]
  rw [hp]

theorem recordOf_release (st : List FState) (fid v : String) :
    recordOf (release_claim st fid) v =
      if fid = v then
        (recordOf st v).map (fun r =>
          { r with status := .pending, claimed_by := none, claimed_at := none })
      else recordOf st v := by
  show recordOf (st.map _) v = _
  rw [recordOf_mapUpdate st fid v
    (fun r => { r with status := .pending, claimed_by := none,
                       claimed_at := none }) (fun r => rfl)]
  cases h : recordOf st v with
  | none => split <;> rfl
  | some r =>
    have hid : r.id = v := recordOf_id_eq h
    by_cases hv : fid = v
    · simp [hv, hid]
    · have hne : r.id ≠ fid := fun hh => hv (hid ▸ hh).symm
      simp [hv, hne]

theorem recordOf_complete (st : List FState) (fid v : String) (ts : Int)
    (pr : String) :
    recordOf (complete_feature st fid ts pr) v =
      if fid = v then
        (recordOf st v).map (fun r =>
          { r with status := .completed, completed_at := some ts,
                   pr_url := some pr })
      else recordOf st v := by
  show recordOf (st.map _) v = _
  rw [recordOf_mapUpdate st fid v
    (fun r => { r with status := .completed, completed_at := some ts,
                       pr_url := some pr }) (fun r => rfl)]
  cases h : recordOf st v with
  | none => split <;> rfl
  | some r =>
    have hid : r.id = v := recordOf_id_eq h
    by_cases hv : fid = v
    · simp [hv, hid]
    · have hne : r.id ≠ fid := fun hh => hv (hid ▸ hh).symm
      simp [hv, hne]

theorem recordOf_claimUpdate (st : List FState) (fid agent : String) (ts : Int)
    (branch : String) (v : String) :
    recordOf (claimUpdate st fid agent ts branch) v =
      if fid = v then
        (recordOf st v).map (fun r =>
          { r with status := .in_progress, claimed_by := some agent,
                   claimed_at := some ts, branch := some branch })
      else recordOf st v := by
  show recordOf (st.map _) v = _
  rw [recordOf_mapUpdate st fid v
    (fun r => { r with status := .in_progress, claimed_by := some agent,
                       claimed_at := some ts, branch := some branch })
    (fun r => rfl)]
  cases h : recordOf st v with
  | none => split <;> rfl
  | some r =>
    have hid : r.id = v := recordOf_id_eq h
    by_cases hv : fid = v
    · simp [hv, hid]
    · have hne : r.id ≠ fid := fun hh => hv (hid ▸ hh).symm
      simp [hv, hne]

theorem statusOf_pending_iff {st : List FState}
    (hnd : (st.map (fun r => r.id)).Nodup) (v : String) :
    statusOf st v = some .pending ↔ v ∈ pendingIds st := by
  constructor
  · intro h
    unfold statusOf at h
    cases hf : st.find? (fun r => r.id == v) with
    | none => rw [hf] at h; cases h
    | some r =>
      rw [hf] at h
      have hid : r.id = v := by simpa using List.find?_some hf
      have hmem : r ∈ st := List.mem_of_find?_eq_some hf
      have hstat : r.status = .pending := by
        simpa using h
      unfold pendingIds
      exact hid ▸ List.mem_map_of_mem _ (List.mem_filter.mpr ⟨hmem, by simp [hstat]⟩)
  · intro h
    unfold pendingIds at h
    obtain ⟨r, hr, hid⟩ := List.mem_map.mp h
    have hr' := List.mem_filter.mp hr
    have hrec : recordOf st v = some r := by
      rw [← hid]; exact recordOf_eq_some_of_mem hnd hr'.1
    rw [statusOf_eq_map, hrec]
    have hst : r.status = .pending := by simpa using hr'.2
    simp [hst]

theorem statusOf_pending_not_completed {st : List FState}
    (hnd : (st.map (fun r => r.id)).Nodup) {v : String}
    (h : statusOf st v = some .pending) : v ∉ completedIds st := by
  intro hc
  unfold completedIds at hc
  obtain ⟨r, hr, hid⟩ := List.mem_map.mp hc
  have hr' := List.mem_filter.mp hr
  have hrec : recordOf st v = some r := by
    rw [← hid]; exact recordOf_eq_some_of_mem hnd hr'.1
  rw [statusOf_eq_map, hrec] at h
  have hcomp : r.status = .completed := by simpa using hr'.2
  simp [hcomp] at h

theorem mem_pendingIds_iff {st : List FState} {v : String} :
    v ∈ pendingIds st ↔ ∃ r ∈ st, r.id = v ∧ r.status = .pending := by
  unfold pendingIds
  constructor
  · intro h
    obtain ⟨r, hr, hid⟩ := List.mem_map.mp h
    have hr' := List.mem_filter.mp hr
    exact ⟨r, hr'.1, hid, by simpa using hr'.2⟩
  · rintro ⟨r, hr, hid, hst⟩
    exact hid ▸ List.mem_map_of_mem _ (List.mem_filter.mpr ⟨hr, by simp [hst]⟩)

theorem mem_completedIds_iff {st : List FState} {v : String} :
    v ∈ completedIds st ↔ ∃ r ∈ st, r.id = v ∧ r.status = .completed := by
  unfold completedIds
  constructor
  · intro h
    obtain ⟨r, hr, hid⟩ := List.mem_map.mp h
    have hr' := List.mem_filter.mp hr
    exact ⟨r, hr'.1, hid, by simpa using hr'.2⟩
  · rintro ⟨r, hr, hid, hst⟩
    exact hid ▸ List.mem_map_of_mem _ (List.mem_filter.mpr ⟨hr, by simp [hst]⟩)

theorem statusOf_eq_pending_iff {st : List FState}
    (hnd : (st.map (fun r => r.id)).Nodup) (v : String) :
    statusOf st v = some .pending ↔ ∃ r ∈ st, r.id = v ∧ r.status = .pending :=
  (statusOf_pending_iff hnd v).trans mem_pendingIds_iff

end RalphClaim

/-! ## Heartbeat lemmas -/

namespace Heartbeat

open RalphClaim

theorem foldRelease_recordOf (hb : String → Option Int) (now th : Int)
    (L : List (String × String)) (acc : List FState) (v : String) :
    recordOf
      (L.foldl (fun a p =>
        if is_agent_alive hb now th p.2 then a else release_claim a p.1) acc) v =
      if ∃ p ∈ L, p.1 = v ∧ is_agent_alive hb now th p.2 = false then
        (recordOf acc v).map (fun r =>
          { r with status := .pending, claimed_by := none, claimed_at := none })
      else recordOf acc v := by
  induction L generalizing acc with
  | nil => simp
  | cons p rest ih =>
    rw [List.foldl_cons]
    by_cases ha : is_agent_alive hb now th p.2
    · rw [if_pos ha, ih]
      have hcond : (∃ q ∈ p :: rest, q.1 = v ∧ is_agent_alive hb now th q.2 = false)
          ↔ ∃ q ∈ rest, q.1 = v ∧ is_agent_alive hb now th q.2 = false := by
        constructor
        · rintro ⟨q, hq, h1, h2⟩
          rcases List.mem_cons.mp hq with rfl | hq
          · rw [ha] at h2; cases h2
          · exact ⟨q, hq, h1, h2⟩
        · rintro ⟨q, hq, h1, h2⟩
          exact ⟨q, List.mem_cons_of_mem _ hq, h1, h2⟩
      simp only [hcond]
    · rw [if_neg ha, ih, recordOf_release]
      by_cases hv : p.1 = v
      · rw [if_pos hv]
        have hcond : ∃ q ∈ p :: rest, q.1 = v ∧ is_agent_alive hb now th q.2 = false :=
          ⟨p, List.mem_cons_self _ _, hv, by simpa using ha⟩
        rw [if_pos hcond]
        split
        · rw [Option.map_map]
          congr 1
        · rfl
      · rw [if_neg hv]
        have hcond : (∃ q ∈ p :: rest, q.1 = v ∧ is_agent_alive hb now th q.2 = false)
            ↔ ∃ q ∈ rest, q.1 = v ∧ is_agent_alive hb now th q.2 = false := by
          constructor
          · rintro ⟨q, hq, h1, h2⟩
            rcases List.mem_cons.mp hq with rfl | hq
            · exact absurd h1 hv
            · exact ⟨q, hq, h1, h2⟩
          · rintro ⟨q, hq, h1, h2⟩
            exact ⟨q, List.mem_cons_of_mem _ hq, h1, h2⟩
        simp only [hcond]

end Heartbeat

/-! ## Merge-planner lemmas: association lists -/

namespace Merge

theorem contains_true_iff {l : List String} {a : String} :
    l.contains a = true ↔ a ∈ l := by
  induction l with
  | nil => simp
  | cons x xs ih =>
    rw [List.contains_cons]
    constructor
    · intro h
      rcases Bool.or_eq_true_iff.mp h with h | h
      · exact (beq_iff_eq.mp h) ▸ List.mem_cons_self _ _
      · exact List.mem_cons_of_mem _ (ih.mp h)
    · intro h
      rcases List.mem_cons.mp h with rfl | h
      · simp
      · exact Bool.or_eq_true_iff.mpr (Or.inr (ih.mpr h))

theorem getA_append_single {α : Type _} (m : List (String × α)) (k : String)
    (v : α) (d : String) :
    getA (m ++ [(k, v)]) d = (getA m d).or (if k = d then some v else none) := by
  unfold getA
  rw [List.find?_append]
  cases h : m.find? (fun p => p.1 == k) <;>
    cases hm : m.find? (fun p => p.1 == d) <;>
      by_cases hkd : k = d <;> simp [hkd, Option.or]

theorem getA_map_replace {α : Type _} (m : List (String × α)) (k : String)
    (v : α) (d : String) (hkd : k ≠ d) :
    getA (m.map (fun p => if p.1 == k then (k, v) else p)) d = getA m d := by
  induction m with
  | nil => rfl
  | cons q qs ih =>
    by_cases hq : q.1 = k
    · unfold getA
      rw [List.map_cons, if_pos (by simp [hq])]
      rw [List.find?_cons_of_neg _ (by simp; exact fun h => hkd h),
          List.find?_cons_of_neg _ (by simp [hq]; exact fun h => hkd (hq ▸ h))]
      exact ih
    · unfold getA
      rw [List.map_cons, if_neg (by simp [hq])]
      by_cases hd : q.1 = d
      · rw [List.find?_cons_of_pos _ (by simp [hd]),
            List.find?_cons_of_pos _ (by simp [hd])]
      · rw [List.find?_cons_of_neg _ (by simp [hd]),
            List.find?_cons_of_neg _ (by simp [hd])]
        exact ih

theorem getA_map_replace_self {α : Type _} (m : List (String × α)) (k : String)
    (v : α) (hp : ∃ q ∈ m, q.1 = k) :
    getA (m.map (fun p => if p.1 == k then (k, v) else p)) k = some v := by
  induction m with
  | nil => obtain ⟨q, hq, _⟩ := hp; cases hq
  | cons q qs ih =>
    by_cases hq : q.1 = k
    · unfold getA
      rw [List.map_cons, if_pos (by simp [hq])]
      rw [List.find?_cons_of_pos _ (by simp)]
      rfl
    · unfold getA
      rw [List.map_cons, if_neg (by simp [hq])]
      rw [List.find?_cons_of_neg _ (by simp [hq])]
      apply ih
      obtain ⟨q', hq', hk⟩ := hp
      rcases List.mem_cons.mp hq' with rfl | hq'
      · exact absurd hk hq
      · exact ⟨q', hq', hk⟩

theorem getA_setA {α : Type _} (m : List (String × α)) (k : String) (v : α)
    (d : String) :
    getA (setA m k v) d = if k = d then some v else getA m d := by
  unfold setA
  by_cases hp : m.any (fun p => p.1 == k)
  · rw [if_pos hp]
    by_cases hkd : k = d
    · subst hkd
      rw [if_pos rfl]
      apply getA_map_replace_self
      obtain ⟨q, hq, hk⟩ := List.any_eq_true.mp hp
      exact ⟨q, hq, by simpa using hk⟩
    · rw [if_neg hkd, getA_map_replace _ _ _ _ hkd]
  · rw [if_neg hp, getA_append_single]
    by_cases hkd : k = d
    · subst hkd
      have hmk : getA m k = none := by
        have hf : m.find? (fun p => p.1 == k) = none :=
          List.find?_eq_none.mpr
            (fun p hpm hpk => hp (List.any_eq_true.mpr ⟨p, hpm, hpk⟩))
        unfold getA
        rw [hf]
        rfl
      rw [hmk]
      simp [Option.or]
    · rw [if_neg hkd]
      cases getA m d <;> simp [Option.or, hkd]

theorem getA_foldl_setA {α : Type _} (val : MFeature → α) :
    ∀ (L : List MFeature) (m0 : List (String × α)) (v : String),
      (L.map (fun f => f.id)).Nodup →
      getA (L.foldl (fun m f => setA m f.id (val f)) m0) v =
        (match L.find? (fun f => f.id == v) with
          | some f => some (val f)
          | none => getA m0 v)
  | [], m0, v, _ => rfl
  | f :: L, m0, v, hnd => by
    simp only [List.map_cons, List.nodup_cons] at hnd
    rw [List.foldl_cons]
    by_cases hf : f.id = v
    · rw [List.find?_cons_of_pos _ (by simp [hf])]
      rw [getA_foldl_setA val L _ v hnd.2]
      have hnone : L.find? (fun g => g.id == v) = none := by
        apply List.find?_eq_none.mpr
        intro g hg hgv
        apply hnd.1
        rw [hf]
        have hgid : g.id = v := by simpa using hgv
        exact hgid ▸ List.mem_map_of_mem _ hg
      rw [hnone, getA_setA, if_pos hf]
    · rw [List.find?_cons_of_neg _ (by simp [hf])]
      rw [getA_foldl_setA val L _ v hnd.2]
      cases L.find? (fun g => g.id == v) with
      | some g => rfl
      | none => simp only [getA_setA, if_neg hf]

theorem cids_eq_map : ∀ fs : List MFeature,
    cids fs = (completedF fs).map (fun f => f.id) := fun _ => rfl

theorem getA_indegInit {fs : List MFeature} (hnd : (cids fs).Nodup)
    (v : String) :
    getA (indegInit fs) v =
      (match cFind fs v with
        | some f =>
          some (((f.depends_on.filter (fun d => (cids fs).contains d)).length : Int))
        | none => none) := by
  unfold indegInit cFind
  rw [getA_foldl_setA _ (completedF fs) [] v (by rw [← cids_eq_map]; exact hnd)]
  cases (completedF fs).find? (fun f => f.id == v) <;> rfl

theorem getA_indegInit_of_mem {fs : List MFeature} (hnd : (cids fs).Nodup)
    {v : String} (hv : v ∈ cids fs) :
    getA (indegInit fs) v = some (((depsOf fs v).length : Int)) := by
  rw [getA_indegInit hnd v]
  unfold depsOf
  obtain ⟨f, hf, hfid⟩ := List.mem_map.mp (cids_eq_map fs ▸ hv)
  have hfind : cFind fs v = some f := by
    unfold cFind
    have h1 := find?_key_eq (fun g => g.id) (by rw [← cids_eq_map]; exact hnd) hf
    have h2 : (completedF fs).find? (fun g => g.id == f.id) = some f := h1
    rw [hfid] at h2
    exact h2
  rw [hfind]

theorem cFind_isSome_iff {fs : List MFeature} {v : String} :
    (cFind fs v).isSome ↔ v ∈ cids fs := by
  unfold cFind
  rw [List.find?_isSome, cids_eq_map]
  constructor
  · rintro ⟨f, hf, hfv⟩
    exact (show f.id = v by simpa using hfv) ▸ List.mem_map_of_mem _ hf
  · intro h
    obtain ⟨f, hf, hfv⟩ := List.mem_map.mp h
    exact ⟨f, hf, by simp [hfv]⟩

theorem getD_adjFold_deps (S : List String) (fid : String) :
    ∀ (deps : List String) (m : List (String × List String)) (d : String),
      (getA (deps.foldl
        (fun m2 x =>
          if S.contains x then setA m2 x ((getA m2 x).getD [] ++ [fid]) else m2)
        m) d).getD []
      = (getA m d).getD []
          ++ (if S.contains d then List.replicate (deps.count d) fid else [])
  | [], m, d => by simp [List.count_nil]
  | x :: rest, m, d => by
    rw [List.foldl_cons]
    rw [getD_adjFold_deps S fid rest _ d]
    by_cases hx : x = d
    · subst hx
      by_cases hc : S.contains x
      · rw [if_pos hc, if_pos hc, if_pos hc, getA_setA, if_pos rfl]
        rw [List.count_cons_self, List.replicate_succ]
        simp [List.append_assoc]
      · rw [if_neg hc, if_neg hc, if_neg hc]
    · have hcount : (x :: rest).count d = rest.count d := by
        simp [List.count_cons, hx]
      rw [hcount]
      by_cases hc : S.contains x
      · rw [if_pos hc, getA_setA, if_neg hx]
      · rw [if_neg hc]

theorem getD_adjOuter (S : List String) :
    ∀ (L : List MFeature) (m : List (String × List String)) (d : String),
      (getA (L.foldl
        (fun m f =>
          f.depends_on.foldl
            (fun m2 x =>
              if S.contains x then setA m2 x ((getA m2 x).getD [] ++ [f.id]) else m2)
            m)
        m) d).getD []
      = (getA m d).getD []
          ++ (if S.contains d then
                L.flatMap (fun f => List.replicate (f.depends_on.count d) (f.id))
              else [])
  | [], m, d => by simp
  | f :: L, m, d => by
    rw [List.foldl_cons]
    rw [getD_adjOuter S L _ d, getD_adjFold_deps S (f.id) f.depends_on m d]
    by_cases hc : S.contains d
    · rw [if_pos hc, if_pos hc, if_pos hc, List.flatMap_cons, List.append_assoc]
    · rw [if_neg hc, if_neg hc, if_neg hc]
      simp

theorem getD_adjInit (fs : List MFeature) (d : String) :
    (getA (adjInit fs) d).getD [] =
      if (cids fs).contains d then
        (completedF fs).flatMap
          (fun f => List.replicate (f.depends_on.count d) f.id)
      else [] := by
  unfold adjInit
  rw [getD_adjOuter (cids fs) (completedF fs) [] d]
  simp [getA]

theorem mem_adjInit {fs : List MFeature} {node w : String}
    (h : w ∈ (getA (adjInit fs) node).getD []) : w ∈ cids fs := by
  rw [getD_adjInit] at h
  by_cases hc : (cids fs).contains node
  · rw [if_pos hc] at h
    obtain ⟨f, hf, hw⟩ := List.mem_flatMap.mp h
    have : w = f.id := List.eq_of_mem_replicate hw
    rw [cids_eq_map]
    exact this ▸ List.mem_map_of_mem _ hf
  · rw [if_neg hc] at h
    cases h

theorem count_flatMap_replicate {L : List MFeature}
    (hnd : (L.map (fun f => f.id)).Nodup) (v node : String) :
    (L.flatMap (fun f => List.replicate (f.depends_on.count node) f.id)).count v
      = (match L.find? (fun f => f.id == v) with
          | some f => f.depends_on.count node
          | none => 0) := by
  induction L with
  | nil => simp
  | cons f L ih =>
    simp only [List.map_cons, List.nodup_cons] at hnd
    rw [List.flatMap_cons, List.count_append]
    by_cases hf : f.id = v
    · rw [List.find?_cons_of_pos _ (by simp [hf])]
      have hnone : L.find? (fun g => g.id == v) = none := by
        apply List.find?_eq_none.mpr
        intro g hg hgv
        apply hnd.1
        rw [hf]
        have hgid : g.id = v := by simpa using hgv
        exact hgid ▸ List.mem_map_of_mem _ hg
      rw [ih hnd.2, hnone, List.count_replicate, if_pos (by simp [hf])]
      simp
    · rw [List.find?_cons_of_neg _ (by simp [hf])]
      rw [ih hnd.2, List.count_replicate, if_neg (by simp [hf])]
      simp

theorem count_adjInit {fs : List MFeature} (hnd : (cids fs).Nodup)
    {node v : String} (hnode : node ∈ cids fs) :
    ((getA (adjInit fs) node).getD []).count v =
      (depsOf fs v).count node := by
  rw [getD_adjInit, if_pos (contains_true_iff.mpr hnode)]
  rw [count_flatMap_replicate (by rw [← cids_eq_map]; exact hnd) v node]
  unfold depsOf cFind
  cases hfind : (completedF fs).find? (fun f => f.id == v) with
  | none => simp
  | some f =>
    by_cases hc : (cids fs).contains node
    · rw [List.count_filter (by simpa using hc)]
    · exact absurd (contains_true_iff.mpr hnode) hc

theorem relax_cons (nb : String) (rest : List String) (q : List String)
    (m : List (String × Int)) :
    relax (nb :: rest) q m =
      relax rest
        (if ((getA m nb).getD 0 - 1) == 0 then q ++ [nb] else q)
        (setA m nb ((getA m nb).getD 0 - 1)) := rfl

theorem relax_indeg :
    ∀ (nbs : List String) (q : List String) (m : List (String × Int))
      (v : String),
      getA (relax nbs q m).2 v =
        if nbs.count v = 0 then getA m v
        else some ((getA m v).getD 0 - nbs.count v)
  | [], q, m, v => by simp [relax]
  | nb :: rest, q, m, v => by
    rw [relax_cons, relax_indeg rest _ _ v]
    by_cases hnb : nb = v
    · subst hnb
      rw [getA_setA, if_pos rfl, List.count_cons_self]
      by_cases hr : rest.count nb = 0
      · rw [if_pos hr, if_neg (by omega)]
        rw [hr]
        norm_num
      · rw [if_neg hr, if_neg (by omega)]
        simp only [Option.getD_some]
        congr 1
        push_cast
        omega
    · rw [getA_setA, if_neg hnb]
      have : (nb :: rest).count v = rest.count v := by
        simp [List.count_cons, hnb]
      rw [this]

theorem relax_queue :
    ∀ (nbs : List String) (q : List String) (m : List (String × Int)),
      ∃ nq, (relax nbs q m).1 = q ++ nq ∧ nq.Nodup ∧
        ∀ v, v ∈ nq ↔
          (1 ≤ (getA m v).getD 0 ∧ (getA m v).getD 0 - nbs.count v ≤ 0)
  | [], q, m => ⟨[], by simp [relax], List.nodup_nil, by
      intro v
      simp only [List.not_mem_nil, false_iff, List.count_nil]
      omega⟩
  | nb :: rest, q, m => by
    rw [relax_cons]
    obtain ⟨nq', h1, h2, h3⟩ :=
      relax_queue rest
        (if ((getA m nb).getD 0 - 1) == 0 then q ++ [nb] else q)
        (setA m nb ((getA m nb).getD 0 - 1))
    by_cases hz : (getA m nb).getD 0 - 1 = 0
    · refine ⟨nb :: nq', ?_, ?_, ?_⟩
      · rw [h1, if_pos (by simpa using hz), List.append_assoc]
        rfl
      · refine List.nodup_cons.mpr ⟨?_, h2⟩
        intro hmem
        have hc := (h3 nb).mp hmem
        rw [getA_setA, if_pos rfl] at hc
        simp only [Option.getD_some] at hc
        omega
      · intro v
        rw [List.mem_cons, h3 v]
        by_cases hv : v = nb
        · subst hv
          rw [getA_setA, if_pos rfl, List.count_cons_self]
          simp only [Option.getD_some]
          constructor
          · intro _
            constructor
            · omega
            · push_cast
              omega
          · intro _
            left
            trivial
        · rw [getA_setA, if_neg (Ne.symm hv)]
          have hcnt : (nb :: rest).count v = rest.count v := by
            simp [List.count_cons, Ne.symm hv]
          rw [hcnt]
          constructor
          · rintro (rfl | h)
            · exact absurd rfl hv
            · exact h
          · exact fun h => Or.inr h
    · refine ⟨nq', ?_, h2, ?_⟩
      · rw [h1, if_neg (by simpa using hz)]
      · intro v
        rw [h3 v]
        by_cases hv : v = nb
        · subst hv
          rw [getA_setA, if_pos rfl, List.count_cons_self]
          simp only [Option.getD_some]
          omega
        · rw [getA_setA, if_neg (Ne.symm hv)]
          have hcnt : (nb :: rest).count v = rest.count v := by
            simp [List.count_cons, Ne.symm hv]
          rw [hcnt]

theorem length_filter_ne_count (node : String) :
    ∀ l : List String,
      (l.filter (fun d => !(d == node))).length = l.length - l.count node
  | [] => by simp
  | d :: l => by
    have ih := length_filter_ne_count node l
    have hle := List.count_le_length node l
    by_cases hd : d = node
    · subst hd
      rw [List.filter_cons_of_neg (by simp), List.count_cons_self, ih,
        List.length_cons]
      omega
    · rw [List.filter_cons_of_pos (by simpa using hd)]
      have hcc : (d :: l).count node = l.count node := by
        simp [List.count_cons, hd]
      rw [hcc, List.length_cons, List.length_cons, ih]
      omega

theorem depsOf_sub_cids {fs : List MFeature} {v d : String}
    (h : d ∈ depsOf fs v) : d ∈ cids fs := by
  unfold depsOf at h
  cases hf : cFind fs v with
  | none => rw [hf] at h; cases h
  | some f =>
    rw [hf] at h
    exact contains_true_iff.mp (by simpa using (List.mem_filter.mp h).2)

theorem remDeps_nil (fs : List MFeature) (v : String) :
    remDeps fs [] v = depsOf fs v := by
  unfold remDeps
  apply List.filter_eq_self.mpr
  intro d _
  simp

theorem remDeps_sub_depsOf {fs : List MFeature} {result : List String}
    {v d : String} (h : d ∈ remDeps fs result v) : d ∈ depsOf fs v :=
  (List.mem_filter.mp h).1

theorem remDeps_eq_nil_iff {fs : List MFeature} {result : List String}
    {v : String} :
    remDeps fs result v = [] ↔ ∀ d ∈ depsOf fs v, d ∈ result := by
  unfold remDeps
  rw [List.filter_eq_nil_iff]
  constructor
  · intro h d hd
    have := h d hd
    simp only [Bool.not_eq_true', Bool.not_eq_false] at this
    exact contains_true_iff.mp this
  · intro h d hd
    simp only [Bool.not_eq_true', Bool.not_eq_false]
    exact contains_true_iff.mpr (h d hd)

theorem count_remDeps {fs : List MFeature} {result : List String}
    {v node : String} (hnode : node ∉ result) :
    (remDeps fs result v).count node = (depsOf fs v).count node := by
  unfold remDeps
  apply List.count_filter
  have : result.contains node = false := by
    rw [← Bool.not_eq_true]
    intro hc
    exact hnode (contains_true_iff.mp hc)
  simp [this]
  exact hnode

theorem remDeps_append_single (fs : List MFeature) (result : List String)
    (node v : String) :
    remDeps fs (result ++ [node]) v =
      (remDeps fs result v).filter (fun d => !(d == node)) := by
  unfold remDeps
  rw [List.filter_filter]
  apply List.filter_congr
  intro d _
  by_cases h1 : d = node
  · subst h1
    have ha : (result ++ [d]).contains d = true :=
      contains_true_iff.mpr (by simp)
    simp [ha]
  · by_cases h2 : d ∈ result
    · have ha : (result ++ [node]).contains d = true :=
        contains_true_iff.mpr (by simp [h2])
      have hb : result.contains d = true := contains_true_iff.mpr h2
      simp [h1, h2]
    · have ha : (result ++ [node]).contains d = false := by
        rw [← Bool.not_eq_true]
        intro hc
        rcases List.mem_append.mp (contains_true_iff.mp hc) with h | h
        · exact h2 h
        · exact h1 (List.mem_singleton.mp h)
      have hb : result.contains d = false := by
        rw [← Bool.not_eq_true]
        intro hc
        exact h2 (contains_true_iff.mp hc)
      simp [ha, hb, h1]

theorem remDeps_append_len {fs : List MFeature} {result : List String}
    {node : String} (hnode : node ∉ result) (v : String) :
    (remDeps fs (result ++ [node]) v).length =
      (remDeps fs result v).length - (depsOf fs v).count node := by
  rw [remDeps_append_single, length_filter_ne_count, count_remDeps hnode]

theorem remDeps_append_of_count_zero {fs : List MFeature}
    {result : List String} {node v : String}
    (hcnt : (depsOf fs v).count node = 0) :
    remDeps fs (result ++ [node]) v = remDeps fs result v := by
  rw [remDeps_append_single]
  apply List.filter_eq_self.mpr
  intro d hd
  have : d ∈ depsOf fs v := remDeps_sub_depsOf hd
  have hne : d ≠ node := by
    intro h
    subst h
    exact absurd (List.count_eq_zero.mp hcnt) (fun hh => hh this)
  simp [hne]

theorem kinv_init (fs : List MFeature) (hnd : (cids fs).Nodup) :
    KInv fs ⟨initQueue fs, [], indegInit fs⟩ := by
  refine ⟨List.nodup_nil, ?_, ?_, ?_, ?_, ?_, ?_, ?_⟩
  · intro v hv; cases hv
  · exact List.Nodup.filter _ hnd
  · intro v hv; exact List.mem_of_mem_filter hv
  · intro v _ hv; cases hv
  · intro v hv
    rw [getA_indegInit_of_mem hnd hv, remDeps_nil]
  · intro v hv
    unfold initQueue
    rw [List.mem_filter]
    have hg := getA_indegInit_of_mem hnd hv
    constructor
    · rintro ⟨_, h⟩
      rw [hg] at h
      have hlen : ((depsOf fs v).length : Int) = 0 :=
        Option.some_inj.mp (beq_iff_eq.mp h)
      refine ⟨(fun hh => by cases hh), ?_⟩
      rw [remDeps_nil]
      exact List.length_eq_zero.mp (by exact_mod_cast hlen)
    · rintro ⟨_, h⟩
      rw [remDeps_nil] at h
      refine ⟨hv, ?_⟩
      rw [hg, h]
      simp
  · intro l1 v l2 h
    exact absurd h (by simp)

theorem kinv_step (fs : List MFeature) (hnd : (cids fs).Nodup)
    (node : String) (rest result : List String) (indeg : List (String × Int))
    (hInv : KInv fs ⟨node :: rest, result, indeg⟩) :
    KInv fs ⟨(relax ((getA (adjInit fs) node).getD []) rest indeg).1,
             result ++ [node],
             (relax ((getA (adjInit fs) node).getD []) rest indeg).2⟩ := by
  obtain ⟨hRnd, hRsub, hQnd, hQsub, hQdis, hInd, hQiff, hTopo⟩ := hInv
  have hnodeS : node ∈ cids fs := hQsub node (List.mem_cons_self _ _)
  have hnodeNR : node ∉ result := hQdis node (List.mem_cons_self _ _)
  have hnodeRem : remDeps fs result node = [] :=
    ((hQiff node hnodeS).mp (List.mem_cons_self _ _)).2
  have hnodeQnd := List.nodup_cons.mp hQnd
  have hResRem : ∀ v ∈ result, remDeps fs result v = [] := by
    intro v hv
    obtain ⟨l1, l2, rfl⟩ := List.append_of_mem hv
    apply remDeps_eq_nil_iff.mpr
    intro d hd
    exact List.mem_append.mpr (Or.inl (hTopo l1 v l2 rfl d hd))
  set adjn := (getA (adjInit fs) node).getD [] with hadjdef
  have hcnt : ∀ v, v ∈ cids fs → adjn.count v = (depsOf fs v).count node :=
    fun v _ => count_adjInit hnd hnodeS
  have hlenv : ∀ v, v ∈ cids fs →
      (getA indeg v).getD 0 = ((remDeps fs result v).length : Int) := by
    intro v hv
    rw [hInd v hv]
    rfl
  obtain ⟨nq, hq1, hqnd, hqiff⟩ := relax_queue adjn rest indeg
  have hnq_iff : ∀ v, v ∈ cids fs →
      (v ∈ nq ↔ 1 ≤ ((remDeps fs result v).length : Int) ∧
        ((remDeps fs result v).length : Int) - (depsOf fs v).count node ≤ 0) := by
    intro v hv
    rw [hqiff v, hlenv v hv, hcnt v hv]
  have hnq_sub : ∀ v ∈ nq, v ∈ cids fs := by
    intro v hv
    have h := (hqiff v).mp hv
    have hpos : 0 < adjn.count v := by omega
    exact mem_adjInit (List.count_pos_iff.mp hpos)
  have hnq_res : ∀ v ∈ nq, v ∉ result := by
    intro v hv hres
    have h := (hnq_iff v (hnq_sub v hv)).mp hv
    rw [hResRem v hres] at h
    simp at h
  have hnq_node : node ∉ nq := by
    intro hv
    have h := (hnq_iff node hnodeS).mp hv
    rw [hnodeRem] at h
    simp at h
  have hrest_nq : ∀ v ∈ rest, v ∉ nq := by
    intro v hv hnq
    have hvS : v ∈ cids fs := hQsub v (List.mem_cons_of_mem _ hv)
    have hq := (hQiff v hvS).mp (List.mem_cons_of_mem _ hv)
    have h := (hnq_iff v hvS).mp hnq
    rw [hq.2] at h
    simp at h
  refine ⟨?_, ?_, ?_, ?_, ?_, ?_, ?_, ?_⟩
  · apply List.Nodup.append hRnd (List.nodup_singleton node)
    intro a ha hb
    rw [List.mem_singleton] at hb
    subst hb
    exact hnodeNR ha
  · intro v hv
    rcases List.mem_append.mp hv with h | h
    · exact hRsub v h
    · rw [List.mem_singleton] at h
      subst h
      exact hnodeS
  · show ((relax adjn rest indeg).1).Nodup
    rw [hq1]
    exact List.Nodup.append hnodeQnd.2 hqnd hrest_nq
  · show ∀ v ∈ (relax adjn rest indeg).1, v ∈ cids fs
    rw [hq1]
    intro v hv
    rcases List.mem_append.mp hv with h | h
    · exact hQsub v (List.mem_cons_of_mem _ h)
    · exact hnq_sub v h
  · show ∀ v ∈ (relax adjn rest indeg).1, v ∉ result ++ [node]
    rw [hq1]
    intro v hv hmem
    rcases List.mem_append.mp hv with h | h
    · rcases List.mem_append.mp hmem with hr | hn
      · exact hQdis v (List.mem_cons_of_mem _ h) hr
      · rw [List.mem_singleton] at hn
        subst hn
        exact hnodeQnd.1 h
    · rcases List.mem_append.mp hmem with hr | hn
      · exact hnq_res v h hr
      · rw [List.mem_singleton] at hn
        subst hn
        exact hnq_node h
  · intro v hv
    show getA (relax adjn rest indeg).2 v = _
    rw [relax_indeg adjn rest indeg v, hcnt v hv]
    by_cases hc : (depsOf fs v).count node = 0
    · rw [if_pos hc, hInd v hv, remDeps_append_of_count_zero hc]
    · rw [if_neg hc, hlenv v hv]
      have hcle : (depsOf fs v).count node ≤ (remDeps fs result v).length := by
        rw [← @count_remDeps fs result v node hnodeNR]
        exact List.count_le_length _ _
      rw [remDeps_append_len hnodeNR v, Nat.cast_sub hcle]
  · intro v hv
    show v ∈ (relax adjn rest indeg).1 ↔ _
    rw [hq1]
    constructor
    · intro hmem
      rcases List.mem_append.mp hmem with h | h
      · have hq := (hQiff v hv).mp (List.mem_cons_of_mem _ h)
        have hvnode : v ≠ node := fun heq => hnodeQnd.1 (heq ▸ h)
        have hcnt0 : (depsOf fs v).count node = 0 := by
          rw [List.count_eq_zero]
          intro hmemdep
          exact hnodeNR (remDeps_eq_nil_iff.mp hq.2 node hmemdep)
        refine ⟨?_, ?_⟩
        · intro hmm
          rcases List.mem_append.mp hmm with hr | hn
          · exact hq.1 hr
          · exact hvnode (List.mem_singleton.mp hn)
        · rw [remDeps_append_of_count_zero hcnt0]
          exact hq.2
      · have hcond := (hnq_iff v hv).mp h
        have hvres : v ∉ result := hnq_res v h
        have hvnode : v ≠ node := fun heq => hnq_node (heq ▸ h)
        have hcle : (depsOf fs v).count node ≤ (remDeps fs result v).length := by
          rw [← @count_remDeps fs result v node hnodeNR]
          exact List.count_le_length _ _
        have hlen0 : (remDeps fs (result ++ [node]) v).length = 0 := by
          rw [remDeps_append_len hnodeNR v]
          omega
        refine ⟨?_, List.length_eq_zero.mp hlen0⟩
        intro hmm
        rcases List.mem_append.mp hmm with hr | hn
        · exact hvres hr
        · exact hvnode (List.mem_singleton.mp hn)
    · rintro ⟨hnotin, hrem⟩
      have hvres : v ∉ result := fun h => hnotin (List.mem_append.mpr (Or.inl h))
      have hvnode : v ≠ node := fun h =>
        hnotin (List.mem_append.mpr (Or.inr (by rw [h]; exact List.mem_singleton_self _)))
      by_cases hc : (depsOf fs v).count node = 0
      · have hrem0 : remDeps fs result v = [] := by
          rw [← @remDeps_append_of_count_zero fs result node v hc]
          exact hrem
        have hq := (hQiff v hv).mpr ⟨hvres, hrem0⟩
        rcases List.mem_cons.mp hq with heq | h
        · exact absurd heq hvnode
        · exact List.mem_append.mpr (Or.inl h)
      · apply List.mem_append.mpr
        right
        apply (hnq_iff v hv).mpr
        have hcle : (depsOf fs v).count node ≤ (remDeps fs result v).length := by
          rw [← @count_remDeps fs result v node hnodeNR]
          exact List.count_le_length _ _
        have hlen0 : (remDeps fs (result ++ [node]) v).length = 0 := by
          rw [hrem]
          rfl
        rw [remDeps_append_len hnodeNR v] at hlen0
        constructor
        · omega
        · omega
  · intro l1 v l2 h
    replace h : result ++ [node] = l1 ++ v :: l2 := h
    show ∀ d ∈ depsOf fs v, d ∈ l1
    rcases List.eq_nil_or_concat l2 with rfl | ⟨l2i, last, rfl⟩
    · have hlen : result.length = l1.length := by
        have hl := congrArg List.length h
        simp at hl
        omega
      obtain ⟨h1, h2⟩ := List.append_inj h hlen
      have hv : node = v := by
        simpa using h2
      intro d hd
      rw [← h1]
      exact remDeps_eq_nil_iff.mp hnodeRem d (hv ▸ hd)
    · rw [List.concat_eq_append] at h
      have h' : result ++ [node] = (l1 ++ v :: l2i) ++ [last] := by
        rw [h]
        simp
      have hlen : result.length = (l1 ++ v :: l2i).length := by
        have hl := congrArg List.length h'
        simp at hl
        simp
        omega
      obtain ⟨h1, _⟩ := List.append_inj h' hlen
      exact hTopo l1 v l2i h1

theorem kahnRun_drain (fs : List MFeature) (hnd : (cids fs).Nodup) :
    ∀ (fuel : Nat) (st : KState), KInv fs st →
      (cids fs).length - st.result.length < fuel →
      (kahnRun (adjInit fs) fuel st).queue = [] ∧
        KInv fs (kahnRun (adjInit fs) fuel st)
  | 0, st, _, hfuel => absurd hfuel (Nat.not_lt_zero _)
  | fuel + 1, ⟨q, res, ind⟩, hInv, hfuel => by
    cases q with
    | nil =>
      show (kahnRun (adjInit fs) (fuel + 1) ⟨[], res, ind⟩).queue = [] ∧ _
      exact ⟨rfl, hInv⟩
    | cons node rest =>
      have hstep := kinv_step fs hnd node rest res ind hInv
      have hsub : (res ++ [node]) ⊆ cids fs := fun a ha => hstep.2.1 a ha
      have hlen : (res ++ [node]).length ≤ (cids fs).length :=
        (List.subperm_of_subset hstep.1 hsub).length_le
      have hrun : kahnRun (adjInit fs) (fuel + 1) ⟨node :: rest, res, ind⟩ =
          kahnRun (adjInit fs) fuel
            ⟨(relax ((getA (adjInit fs) node).getD []) rest ind).1,
             res ++ [node],
             (relax ((getA (adjInit fs) node).getD []) rest ind).2⟩ := rfl
      rw [hrun]
      apply kahnRun_drain fs hnd fuel _ hstep
      show (cids fs).length - (res ++ [node]).length < fuel
      rw [List.length_append, List.length_singleton]
      simp only [List.length_append, List.length_singleton] at hlen
      have hfuel' : (cids fs).length - res.length < fuel + 1 := hfuel
      omega

theorem kahn_final (fs : List MFeature) (hnd : (cids fs).Nodup) :
    (kahnRun (adjInit fs) ((cids fs).length + 1)
      ⟨initQueue fs, [], indegInit fs⟩).queue = [] ∧
    KInv fs (kahnRun (adjInit fs) ((cids fs).length + 1)
      ⟨initQueue fs, [], indegInit fs⟩) := by
  apply kahnRun_drain fs hnd ((cids fs).length + 1) _ (kinv_init fs hnd)
  show (cids fs).length - ([] : List String).length < (cids fs).length + 1
  simp

theorem cycle_of_pred (R : List String) (hne : R ≠ [])
    (E : String → String → Prop) (h : ∀ v ∈ R, ∃ d ∈ R, E d v) :
    ∃ v, Relation.TransGen E v v := by
  have h' : ∀ v, ∃ d, v ∈ R → d ∈ R ∧ E d v := by
    intro v
    by_cases hv : v ∈ R
    · obtain ⟨d, hd, he⟩ := h v hv
      exact ⟨d, fun _ => ⟨hd, he⟩⟩
    · exact ⟨v, fun hv' => absurd hv' hv⟩
  choose g hg using h'
  obtain ⟨v0, hv0⟩ := List.exists_mem_of_ne_nil R hne
  have hiter : ∀ n, g^[n] v0 ∈ R := by
    intro n
    induction n with
    | zero => simpa using hv0
    | succ n ih =>
      rw [Function.iterate_succ_apply']
      exact (hg _ ih).1
  have htg : ∀ (k : Nat) (v : String), v ∈ R → 1 ≤ k →
      Relation.TransGen E (g^[k] v) v := by
    intro k
    induction k with
    | zero => intro v _ hk; omega
    | succ k ih =>
      intro v hv _
      cases Nat.eq_zero_or_pos k with
      | inl h0 =>
        subst h0
        rw [Function.iterate_one]
        exact Relation.TransGen.single (hg v hv).2
      | inr hpos =>
        rw [Function.iterate_succ_apply]
        exact Relation.TransGen.trans
          (ih (g v) (hg v hv).1 hpos)
          (Relation.TransGen.single (hg v hv).2)
  have key : ∀ i j : Nat, i < j → g^[i] v0 = g^[j] v0 →
      ∃ v, Relation.TransGen E v v := by
    intro i j hlt heq
    refine ⟨g^[i] v0, ?_⟩
    have hdecomp : g^[j] v0 = g^[j - i] (g^[i] v0) := by
      rw [← Function.iterate_add_apply]
      congr 1
      omega
    have htr := htg (j - i) (g^[i] v0) (hiter i) (by omega)
    rw [← hdecomp, ← heq] at htr
    exact htr
  have hmaps : ∀ n ∈ Finset.range (R.length + 1), g^[n] v0 ∈ R.toFinset :=
    fun n _ => List.mem_toFinset.mpr (hiter n)
  have hcard : R.toFinset.card < (Finset.range (R.length + 1)).card := by
    rw [Finset.card_range]
    exact Nat.lt_succ_of_le (List.toFinset_card_le R)
  obtain ⟨i, _, j, _, hij, heq⟩ :=
    Finset.exists_ne_map_eq_of_card_lt_of_maps_to hcard hmaps
  rcases Ne.lt_or_lt hij with hlt | hlt
  · exact key i j hlt heq
  · exact key j i hlt heq.symm

theorem merge_order_topo (fs : List MFeature) (hnd : (cids fs).Nodup) :
    ∀ l1 v l2, calculate_merge_order fs = l1 ++ v :: l2 →
      ∀ d ∈ depsOf fs v, d ∈ l1 := by
  have hInv := (kahn_final fs hnd).2
  intro l1 v l2 h
  exact hInv.2.2.2.2.2.2.2 l1 v l2 h

theorem merge_order_nodup (fs : List MFeature) (hnd : (cids fs).Nodup) :
    (calculate_merge_order fs).Nodup ∧
      ∀ v ∈ calculate_merge_order fs, v ∈ cids fs := by
  have hInv := (kahn_final fs hnd).2
  exact ⟨hInv.1, hInv.2.1⟩

theorem acyclic_of_complete (fs : List MFeature) (hnd : (cids fs).Nodup)
    (hlen : (calculate_merge_order fs).length = (cids fs).length) :
    AcyclicCompleted fs := by
  obtain ⟨hOnd, hOsub⟩ := merge_order_nodup fs hnd
  have hperm : List.Perm (calculate_merge_order fs) (cids fs) :=
    (List.subperm_of_subset hOnd (fun a ha => hOsub a ha)).perm_of_length_le
      (le_of_eq hlen.symm)
  have hmemS : ∀ v ∈ cids fs, v ∈ calculate_merge_order fs :=
    fun v hv => hperm.mem_iff.mpr hv
  have hedge : ∀ u v, Edge fs u v →
      (calculate_merge_order fs).indexOf u <
        (calculate_merge_order fs).indexOf v := by
    rintro u v ⟨hu, hv⟩
    obtain ⟨l1, l2, hdec⟩ := List.append_of_mem (hmemS v hv)
    have hul1 : u ∈ l1 := merge_order_topo fs hnd l1 v l2 hdec u hu
    have hnd2 : (l1 ++ v :: l2).Nodup := hdec ▸ hOnd
    have hvnotl1 : v ∉ l1 := fun hc =>
      (List.nodup_append.mp hnd2).2.2 hc (List.mem_cons_self _ _)
    rw [hdec, List.indexOf_append_of_mem hul1,
        List.indexOf_append_of_not_mem hvnotl1, List.indexOf_cons_self]
    have := List.indexOf_lt_length.mpr hul1
    omega
  rintro ⟨v, htg⟩
  have hmono : ∀ a b, Relation.TransGen (Edge fs) a b →
      (calculate_merge_order fs).indexOf a <
        (calculate_merge_order fs).indexOf b := by
    intro a b htg2
    induction htg2 with
    | single h => exact hedge _ _ h
    | tail _ h ih => exact lt_trans ih (hedge _ _ h)
  exact absurd (hmono v v htg) (lt_irrefl _)

theorem complete_of_acyclic (fs : List MFeature) (hnd : (cids fs).Nodup)
    (hac : AcyclicCompleted fs) :
    (calculate_merge_order fs).length = (cids fs).length := by
  obtain ⟨hqe, hInv⟩ := kahn_final fs hnd
  obtain ⟨hOnd, hOsub, _, _, _, _, hQiff, _⟩ := hInv
  have hle : (calculate_merge_order fs).length ≤ (cids fs).length :=
    (List.subperm_of_subset hOnd (fun a ha => hOsub a ha)).length_le
  by_contra hne
  have hRchar : ∀ v,
      (v ∈ (cids fs).filter
        (fun v => !((calculate_merge_order fs).contains v)) ↔
        v ∈ cids fs ∧ v ∉ calculate_merge_order fs) := by
    intro v
    rw [List.mem_filter]
    constructor
    · rintro ⟨h1, h2⟩
      refine ⟨h1, ?_⟩
      intro hc
      rw [contains_true_iff.mpr hc] at h2
      cases h2
    · rintro ⟨h1, h2⟩
      refine ⟨h1, ?_⟩
      have : (calculate_merge_order fs).contains v = false := by
        rw [← Bool.not_eq_true]
        intro hc
        exact h2 (contains_true_iff.mp hc)
      rw [this]
      rfl
  have hRne : (cids fs).filter
      (fun v => !((calculate_merge_order fs).contains v)) ≠ [] := by
    intro hR
    have hsub2 : ∀ v ∈ cids fs, v ∈ calculate_merge_order fs := by
      intro v hv
      by_contra hvo
      have hmem := (hRchar v).mpr ⟨hv, hvo⟩
      rw [hR] at hmem
      cases hmem
    have : (cids fs).length ≤ (calculate_merge_order fs).length :=
      (List.subperm_of_subset hnd (fun a ha => hsub2 a ha)).length_le
    omega
  have hpred : ∀ v ∈ (cids fs).filter
      (fun v => !((calculate_merge_order fs).contains v)),
      ∃ d ∈ (cids fs).filter
        (fun v => !((calculate_merge_order fs).contains v)), Edge fs d v := by
    intro v hv
    obtain ⟨hvS, hvo⟩ := (hRchar v).mp hv
    have hq := hQiff v hvS
    have hfalse : ¬(v ∉ calculate_merge_order fs ∧
        remDeps fs (calculate_merge_order fs) v = []) := by
      intro hc
      have hmem := hq.mpr hc
      rw [hqe] at hmem
      cases hmem
    have hremne : remDeps fs (calculate_merge_order fs) v ≠ [] :=
      fun hr => hfalse ⟨hvo, hr⟩
    obtain ⟨d, hd⟩ := List.exists_mem_of_ne_nil _ hremne
    have hddeps : d ∈ depsOf fs v := remDeps_sub_depsOf hd
    have hdno : d ∉ calculate_merge_order fs := by
      have hdf := (List.mem_filter.mp hd).2
      intro hc
      rw [contains_true_iff.mpr hc] at hdf
      cases hdf
    exact ⟨d, (hRchar d).mpr ⟨depsOf_sub_cids hddeps, hdno⟩, hddeps, hvS⟩
  obtain ⟨v, htg⟩ := cycle_of_pred _ hRne (Edge fs) hpred
  exact hac ⟨v, htg⟩

end Merge

/-! ## Claim theorems -/

open RalphClaim

/-- C1: `claim_feature` commits the Pending → InProgress transition exactly
when, at commit time under the claim lock, the feature's state record is
`pending` and every id in its PRD `depends_on` list is completed in the state
document; when either precondition fails the call returns failure (`none`)
and, the function returning no new document, the state file is unchanged.
On success the committed document is exactly the claim update (status
`in_progress`, `claimed_by`, `claimed_at`, assigned branch). -/
theorem claim_feature_commit_iff (prd : List FSpec) (st : List FState)
    (fid agent : String) (ts : Int) (pfx : String)
    (hp : (prd.map (fun f => f.id)).Nodup)
    (hs : (st.map (fun r => r.id)).Nodup) :
    ((claim_feature prd st fid agent ts pfx).isSome ↔
      ((∃ r ∈ st, r.id = fid ∧ r.status = .pending) ∧
        ∃ f ∈ prd, f.id = fid ∧ ∀ d ∈ f.depends_on, d ∈ completedIds st)) ∧
    ∀ st', claim_feature prd st fid agent ts pfx = some st' →
      st' = claimUpdate st fid agent ts (pfx ++ "/" ++ fid) := by
  constructor
  · by_cases h1 : statusOf st fid = some .pending
    · unfold claim_feature
      rw [if_neg (not_not_intro h1)]
      cases h2 : prd.find? (fun f => f.id == fid) with
      | none =>
        apply iff_of_false (by simp)
        rintro ⟨_, f, hf, hfid, _⟩
        have : (prd.find? (fun f => f.id == fid)).isSome :=
          List.find?_isSome.mpr ⟨f, hf, by simp [hfid]⟩
        rw [h2] at this
        cases this
      | some f =>
        dsimp only
        have hfmem : f ∈ prd := List.mem_of_find?_eq_some h2
        have hfid : f.id = fid := by simpa using List.find?_some h2
        by_cases h3 : depsMet f.depends_on (completedIds st) = true
        · rw [if_pos h3]
          apply iff_of_true (by simp)
          exact ⟨(statusOf_eq_pending_iff hs fid).mp h1,
            f, hfmem, hfid, depsMet_iff.mp h3⟩
        · rw [if_neg h3]
          apply iff_of_false (by simp)
          rintro ⟨_, f', hf', hfid', hdeps'⟩
          have hff : f = f' :=
            List.inj_on_of_nodup_map hp hfmem hf' (by rw [hfid, hfid'])
          exact h3 (by rw [hff]; exact depsMet_iff.mpr hdeps')
    · unfold claim_feature
      rw [if_pos h1]
      apply iff_of_false (by simp)
      rintro ⟨⟨r, hr, hrid, hrst⟩, _⟩
      exact h1 ((statusOf_eq_pending_iff hs fid).mpr ⟨r, hr, hrid, hrst⟩)
  · intro st' h
    unfold claim_feature at h
    by_cases h1 : statusOf st fid ≠ some .pending
    · rw [if_pos h1] at h
      exact absurd h (by simp)
    · rw [if_neg h1] at h
      cases h2 : prd.find? (fun f => f.id == fid) with
      | none =>
        rw [h2] at h
        exact absurd h (by simp)
      | some f =>
        rw [h2] at h
        dsimp only at h
        by_cases h3 : depsMet f.depends_on (completedIds st) = true
        · rw [if_pos h3] at h
          exact (Option.some_inj.mp h).symm
        · rw [if_neg h3] at h
          exact absurd h (by simp)

/-- Witness for C1 at a concrete catalog and state: feature `B` depends on
the completed `A` and is pending, so the claim commits. -/
theorem claim_feature_commit_iff_witness :
    (([⟨"A", [], 1⟩, ⟨"B", ["A"], 2⟩] :
        List FSpec).map (fun f => f.id)).Nodup ∧
    (([⟨"A", .completed, none, none, some 3, none, none, none⟩,
       ⟨"B", .pending, none, none, none, none, none, none⟩] :
        List FState).map (fun r => r.id)).Nodup ∧
    (((claim_feature [⟨"A", [], 1⟩, ⟨"B", ["A"], 2⟩]
        [⟨"A", .completed, none, none, some 3, none, none, none⟩,
         ⟨"B", .pending, none, none, none, none, none, none⟩]
        "B" "w1" 9 "ralph").isSome ↔
      ((∃ r ∈ ([⟨"A", .completed, none, none, some 3, none, none, none⟩,
          ⟨"B", .pending, none, none, none, none, none, none⟩] : List FState),
          r.id = "B" ∧ r.status = .pending) ∧
        ∃ f ∈ ([⟨"A", [], 1⟩, ⟨"B", ["A"], 2⟩] : List FSpec), f.id = "B" ∧
          ∀ d ∈ f.depends_on,
            d ∈ completedIds
              [⟨"A", .completed, none, none, some 3, none, none, none⟩,
               ⟨"B", .pending, none, none, none, none, none, none⟩])) ∧
      ∀ st', claim_feature [⟨"A", [], 1⟩, ⟨"B", ["A"], 2⟩]
          [⟨"A", .completed, none, none, some 3, none, none, none⟩,
           ⟨"B", .pending, none, none, none, none, none, none⟩]
          "B" "w1" 9 "ralph" = some st' →
        st' = claimUpdate
          [⟨"A", .completed, none, none, some 3, none, none, none⟩,
           ⟨"B", .pending, none, none, none, none, none, none⟩]
          "B" "w1" 9 ("ralph" ++ "/" ++ "B")) :=
  ⟨by decide, by decide,
    claim_feature_commit_iff _ _ "B" "w1" 9 "ralph" (by decide) (by decide)⟩

/-- C2 counterexample: completing a feature whose status is `pending` (not
`in_progress`) is NOT rejected — `complete_feature` persists the illegal
Pending → Completed transition (the call returns 0 and the document changes),
contradicting the claim that `complete`/`release` fail with no state change
whenever the status is not InProgress. -/
theorem complete_pending_persists_cx :
    statusOf
      (complete_feature
        [⟨"A", .pending, none, none, none, none, none, none⟩] "A" 7 "pr")
      "A" = some .completed ∧
    complete_feature
        [⟨"A", .pending, none, none, none, none, none, none⟩] "A" 7 "pr" ≠
      [⟨"A", .pending, none, none, none, none, none, none⟩] := by
  constructor
  · rfl
  · decide

/-- C2 amended: `claim_feature` does guard its transition (it commits only
from `pending`), but `release_claim` and `complete_feature` enforce no
precondition at all: whatever the current status of the record, `release`
rewrites it to `pending` with the claim fields cleared, and `complete`
rewrites it to `completed` with `completed_at`/`pr_url` set, and both calls
succeed.  Only the Pending → InProgress edge of the DFA is enforced. -/
theorem release_complete_unconditional (st : List FState) (fid : String)
    (ts : Int) (pr : String) (hs : (st.map (fun r => r.id)).Nodup)
    (r : FState) (hr : r ∈ st) (hrid : r.id = fid) :
    recordOf (release_claim st fid) fid =
      some { r with status := .pending, claimed_by := none,
                    claimed_at := none } ∧
    recordOf (complete_feature st fid ts pr) fid =
      some { r with status := .completed, completed_at := some ts,
                    pr_url := some pr } ∧
    ∀ (prd : List FSpec) (agent : String) (pfx : String),
      (claim_feature prd st fid agent ts pfx).isSome →
        statusOf st fid = some .pending := by
  have hrec : recordOf st fid = some r := hrid ▸ recordOf_eq_some_of_mem hs hr
  refine ⟨?_, ?_, ?_⟩
  · rw [recordOf_release, if_pos rfl, hrec]
    rfl
  · rw [recordOf_complete, if_pos rfl, hrec]
    rfl
  · intro prd agent pfx h
    unfold claim_feature at h
    by_cases h1 : statusOf st fid ≠ some .pending
    · rw [if_pos h1] at h
      cases h
    · exact not_not.mp h1

/-- Witness for C2's amended statement: releasing and completing a `blocked`
feature both persist their transition. -/
theorem release_complete_unconditional_witness :
    (([⟨"A", .blocked, none, none, none, none, none, some "why"⟩] :
        List FState).map (fun r => r.id)).Nodup ∧
    (⟨"A", .blocked, none, none, none, none, none, some "why"⟩ : FState) ∈
      ([⟨"A", .blocked, none, none, none, none, none, some "why"⟩] :
        List FState) ∧
    (recordOf
        (release_claim
          [⟨"A", .blocked, none, none, none, none, none, some "why"⟩] "A")
        "A" =
      some ⟨"A", .pending, none, none, none, none, none, some "why"⟩ ∧
    recordOf
        (complete_feature
          [⟨"A", .blocked, none, none, none, none, none, some "why"⟩]
          "A" 7 "pr") "A" =
      some ⟨"A", .completed, none, none, some 7, some "pr", none, some "why"⟩ ∧
    ∀ (prd : List FSpec) (agent : String) (pfx : String),
      (claim_feature prd
          [⟨"A", .blocked, none, none, none, none, none, some "why"⟩]
          "A" agent 7 pfx).isSome →
        statusOf
          [⟨"A", .blocked, none, none, none, none, none, some "why"⟩] "A" =
          some .pending) :=
  ⟨by decide, by decide,
    release_complete_unconditional
      [⟨"A", .blocked, none, none, none, none, none, some "why"⟩]
      "A" 7 "pr" (by decide)
      ⟨"A", .blocked, none, none, none, none, none, some "why"⟩
      (by decide) rfl⟩

/-- C3: with exactly one claimable feature (`A`; `AB` is pending but blocked
on the blocked feature `Z`), two serialized `claim_next_feature` calls BOTH
succeed and both return `A`: after `w1` claims `A`, the jq test
`$pending | contains(["A"])` still accepts `A` because `"A"` is a substring
of the pending id `"AB"`, so `w2` re-claims `A` and silently overwrites
`claimed_by` from `w1` to `w2`.  This refutes the claimed
exactly-one-success property; the mkdir lock serializes the two calls, so
the two orders of this sequential composition are the only executions, and
the symmetric order behaves identically. -/
theorem claim_next_double_claim_eval :
    get_claimable_features
      [⟨"A", [], 1⟩, ⟨"AB", ["Z"], 2⟩, ⟨"Z", [], 3⟩]
      [⟨"A", .pending, none, none, none, none, none, none⟩,
       ⟨"AB", .pending, none, none, none, none, none, none⟩,
       ⟨"Z", .blocked, none, none, none, none, none, some "r"⟩] = ["A"] ∧
    (claim_next_feature
      [⟨"A", [], 1⟩, ⟨"AB", ["Z"], 2⟩, ⟨"Z", [], 3⟩]
      [⟨"A", .pending, none, none, none, none, none, none⟩,
       ⟨"AB", .pending, none, none, none, none, none, none⟩,
       ⟨"Z", .blocked, none, none, none, none, none, some "r"⟩]
      "w1" 100 "ralph").map Prod.fst = some "A" ∧
    ((claim_next_feature
      [⟨"A", [], 1⟩, ⟨"AB", ["Z"], 2⟩, ⟨"Z", [], 3⟩]
      [⟨"A", .pending, none, none, none, none, none, none⟩,
       ⟨"AB", .pending, none, none, none, none, none, none⟩,
       ⟨"Z", .blocked, none, none, none, none, none, some "r"⟩]
      "w1" 100 "ralph").bind
      (fun x => claim_next_feature
        [⟨"A", [], 1⟩, ⟨"AB", ["Z"], 2⟩, ⟨"Z", [], 3⟩]
        x.2 "w2" 200 "ralph")).map Prod.fst = some "A" ∧
    ((claim_next_feature
      [⟨"A", [], 1⟩, ⟨"AB", ["Z"], 2⟩, ⟨"Z", [], 3⟩]
      [⟨"A", .pending, none, none, none, none, none, none⟩,
       ⟨"AB", .pending, none, none, none, none, none, none⟩,
       ⟨"Z", .blocked, none, none, none, none, none, some "r"⟩]
      "w1" 100 "ralph").bind
      (fun x => claim_next_feature
        [⟨"A", [], 1⟩, ⟨"AB", ["Z"], 2⟩, ⟨"Z", [], 3⟩]
        x.2 "w2" 200 "ralph")).bind
      (fun y => (recordOf y.2 "A").map (fun r => r.claimed_by)) =
      some (some "w2") := by
  refine ⟨by decide, by decide, by decide, by decide⟩

/-- C5 (code bug): the stale-claim query of `release_stale_claims` runs on
`$PRD_FILE` — the static catalog — while `release_claim` rewrites the
separate `$STATE_FILE`.  The catalog never carries an `in_progress` status
(no code path writes one into it), so the reaper pass finds no candidates
and releases nothing: whenever no catalog record has status `in_progress`,
the state document is returned entirely unchanged, however stale and
heartbeat-dead its InProgress claims are — contradicting the claimed
release-iff (and spec scenario 3, crash recovery). -/
theorem stale_reaper_noop (prd : List Heartbeat.PrdFeature) (st : List FState)
    (hb : String → Option Int) (now th : Int)
    (hcat : ∀ r ∈ prd, r.status ≠ some FStatus.in_progress) :
    Heartbeat.release_stale_claims prd st hb now th = st := by
  unfold Heartbeat.release_stale_claims
  have hempty : Heartbeat.staleCandidates prd now th = [] := by
    unfold Heartbeat.staleCandidates
    rw [List.filter_eq_nil_iff.mpr]
    · rfl
    · intro r hr hc
      simp only [Bool.and_eq_true, beq_iff_eq, decide_eq_true_eq] at hc
      exact hcat r hr hc.1.1
  rw [hempty]
  rfl

/-- Witness for C5 at the failing input: the catalog record for `F` carries
no status, and the state record for `F` is in_progress, claimed at time 0
by a worker with no heartbeat, checked at time 700 with threshold 600 — a
claim the spec requires the reaper to release — yet the state document comes
back unchanged. -/
theorem stale_reaper_noop_witness :
    (∀ r ∈ ([⟨"F", none, none, none⟩] : List Heartbeat.PrdFeature),
      r.status ≠ some FStatus.in_progress) ∧
    Heartbeat.release_stale_claims
      [⟨"F", none, none, none⟩]
      [⟨"F", .in_progress, some "w", some 0, none, none, none, none⟩]
      (fun _ => none) 700 600 =
    [⟨"F", .in_progress, some "w", some 0, none, none, none, none⟩] :=
  ⟨by decide,
    stale_reaper_noop [⟨"F", none, none, none⟩]
      [⟨"F", .in_progress, some "w", some 0, none, none, none, none⟩]
      (fun _ => none) 700 600 (by decide)⟩

/-- C6 counterexample: with two claimable features of equal priority listed
in the catalog in the order `b`, `a`, `claim_next_feature` selects `b` — the
catalog-order tie-break — not the id-order winner `a` the claim promises. -/
theorem claim_next_tiebreak_cx :
    get_claimable_features [⟨"b", [], 1⟩, ⟨"a", [], 1⟩]
      [⟨"b", .pending, none, none, none, none, none, none⟩,
       ⟨"a", .pending, none, none, none, none, none, none⟩] = ["b", "a"] ∧
    (claim_next_feature [⟨"b", [], 1⟩, ⟨"a", [], 1⟩]
      [⟨"b", .pending, none, none, none, none, none, none⟩,
       ⟨"a", .pending, none, none, none, none, none, none⟩]
      "w" 5 "ralph").map Prod.fst = some "b" := by
  refine ⟨by decide, by decide⟩

/-- C6 amended: `claim_next_feature` selects, among the claimable candidates,
a feature of minimal priority value, and among equal-priority candidates the
one occurring FIRST IN CATALOG ORDER (jq's `sort_by` is stable), not the one
with the smallest id. -/
theorem claim_next_min_priority_catalog_order (prd : List FSpec)
    (st : List FState) (f : FSpec) (h : claimNextSelect prd st = some f) :
    f ∈ claimCandidates prd st ∧
    (∀ g ∈ claimCandidates prd st, f.priority ≤ g.priority) ∧
    ∀ g ∈ claimCandidates prd st, g.priority = f.priority →
      (claimCandidates prd st).indexOf f ≤ (claimCandidates prd st).indexOf g := by
  have h' : firstMinBy (fun f => f.priority) (claimCandidates prd st) = some f := by
    rw [← jqSortBy_head?]
    exact h
  exact firstMinBy_spec _ h'

/-- Witness for C6's amended statement at the counterexample input: the
selected feature `b` is a minimal-priority candidate that is first in
catalog order. -/
theorem claim_next_min_priority_catalog_order_witness :
    claimNextSelect [⟨"b", [], 1⟩, ⟨"a", [], 1⟩]
      [⟨"b", .pending, none, none, none, none, none, none⟩,
       ⟨"a", .pending, none, none, none, none, none, none⟩] =
      some ⟨"b", [], 1⟩ ∧
    ((⟨"b", [], 1⟩ : FSpec) ∈ claimCandidates [⟨"b", [], 1⟩, ⟨"a", [], 1⟩]
      [⟨"b", .pending, none, none, none, none, none, none⟩,
       ⟨"a", .pending, none, none, none, none, none, none⟩] ∧
    (∀ g ∈ claimCandidates [⟨"b", [], 1⟩, ⟨"a", [], 1⟩]
        [⟨"b", .pending, none, none, none, none, none, none⟩,
         ⟨"a", .pending, none, none, none, none, none, none⟩],
      (⟨"b", [], 1⟩ : FSpec).priority ≤ g.priority) ∧
    ∀ g ∈ claimCandidates [⟨"b", [], 1⟩, ⟨"a", [], 1⟩]
        [⟨"b", .pending, none, none, none, none, none, none⟩,
         ⟨"a", .pending, none, none, none, none, none, none⟩],
      g.priority = (⟨"b", [], 1⟩ : FSpec).priority →
        (claimCandidates [⟨"b", [], 1⟩, ⟨"a", [], 1⟩]
          [⟨"b", .pending, none, none, none, none, none, none⟩,
           ⟨"a", .pending, none, none, none, none, none, none⟩]).indexOf
            ⟨"b", [], 1⟩ ≤
          (claimCandidates [⟨"b", [], 1⟩, ⟨"a", [], 1⟩]
            [⟨"b", .pending, none, none, none, none, none, none⟩,
             ⟨"a", .pending, none, none, none, none, none, none⟩]).indexOf g) :=
  ⟨by decide,
    claim_next_min_priority_catalog_order
      [⟨"b", [], 1⟩, ⟨"a", [], 1⟩]
      [⟨"b", .pending, none, none, none, none, none, none⟩,
       ⟨"a", .pending, none, none, none, none, none, none⟩]
      ⟨"b", [], 1⟩ (by decide)⟩

/-- C7 counterexample: re-posting the identical (id, answer, answerer) triple
on an already-Answered record is rejected (`answer_decision` exits 1 because
the status is not `pending`), not accepted idempotently as the claim states. -/
theorem answer_idempotent_cx :
    Decisions.answer_decision
      ⟨"d1", "q", ["JWT", "Sessions"], .answered, some "JWT",
        some "alice", some 10⟩
      "JWT" "alice" 20 = none := by decide

/-- C7 amended: `answer_decision` succeeds exactly when the record is
currently Pending and the answer is one of the recorded options; EVERY
answer posted to a non-Pending record — including a repeat of the already
recorded triple — is rejected.  On success it writes status `answered`, the
answer, the answerer and the timestamp. -/
theorem answer_decision_pending_iff (d : Decisions.Decision)
    (ans answerer : String) (now : Int) :
    ((Decisions.answer_decision d ans answerer now).isSome ↔
      (d.status = .pending ∧ ans ∈ d.options)) ∧
    ∀ d', Decisions.answer_decision d ans answerer now = some d' →
      d' = { d with status := .answered, answer := some ans,
                    answered_by := some answerer, answered_at := some now } := by
  unfold Decisions.answer_decision
  by_cases h1 : d.status ≠ Decisions.DStatus.pending
  · rw [if_pos h1]
    refine ⟨iff_of_false (by simp) ?_, ?_⟩
    · rintro ⟨hp, _⟩
      exact h1 hp
    · intro d' h
      cases h
  · rw [if_neg h1]
    by_cases h2 : jqArrIndex d.options ans = true
    · rw [if_neg (by simp [h2])]
      refine ⟨iff_of_true (by simp) ⟨not_not.mp h1, Merge.contains_true_iff.mp h2⟩, ?_⟩
      intro d' h
      exact (Option.some_inj.mp h).symm
    · rw [if_pos (by simpa using h2)]
      refine ⟨iff_of_false (by simp) ?_, ?_⟩
      · rintro ⟨_, hm⟩
        exact h2 (Merge.contains_true_iff.mpr hm)
      · intro d' h
        cases h

/-- C8 counterexample: a ledger whose daily total exactly equals the cap is
reported as WITHIN budget (`check_budget` returns 0/true), because the bc
test `daily_total > MAX_DAILY_COST_USD` is strict; the claim says the gate
must report over budget at equality. -/
theorem budget_cap_equality_cx :
    Budget.check_budget
      [⟨"2026-10-11T01:00:00+00:00", "w", "f", 1, 1, 10⟩]
      "2026-10-11" 10 = true ∧
    ¬(Budget.get_daily_cost
      [⟨"2026-10-11T01:00:00+00:00", "w", "f", 1, 1, 10⟩]
      "2026-10-11" < 10) := by
  have hdc : Budget.get_daily_cost
      [⟨"2026-10-11T01:00:00+00:00", "w", "f", 1, 1, 10⟩] "2026-10-11" = 10 := by
    have h1 : Budget.get_daily_cost
        [⟨"2026-10-11T01:00:00+00:00", "w", "f", 1, 1, 10⟩] "2026-10-11" =
        0 + 10 := rfl
    rw [h1]
    norm_num
  refine ⟨?_, ?_⟩
  · unfold Budget.check_budget
    rw [hdc, if_neg (by norm_num)]
  · rw [hdc]
    norm_num

/-- C8 amended: the budget gate returns true (within budget) iff the sum of
today's cost-ledger entries is AT MOST the configured daily cap — a
non-strict comparison, with equality counted as within budget. -/
theorem check_budget_iff_le (ledger : List Budget.CostEntry) (today : String)
    (cap : Rat) :
    Budget.check_budget ledger today cap = true ↔
      Budget.get_daily_cost ledger today ≤ cap := by
  unfold Budget.check_budget
  by_cases h : Budget.get_daily_cost ledger today > cap
  · rw [if_pos h]
    exact iff_of_false (by simp) (not_le.mpr h)
  · rw [if_neg h]
    exact iff_of_true rfl (not_lt.mp h)

/-- C9 counterexample: releasing a lock whose directory is already gone
returns failure (exit 1 after "Lock directory not found"), not success as
the claim states. -/
theorem release_lock_gone_fails_cx :
    (RalphLock.release_lock [] "ralph-lock-state-claim").1 = false := rfl

/-- C9 amended: `release_lock` returns success iff the lock directory exists
(removing it); when the directory is already gone it logs a warning and
returns failure, though the second release is harmless — it leaves the set
of lock directories unchanged, so a double release or a release after a
force-break cannot corrupt anything. -/
theorem release_lock_succeeds_iff (dirs : List String) (d : String) :
    ((RalphLock.release_lock dirs d).1 = dirs.contains d) ∧
    (RalphLock.release_lock (RalphLock.release_lock dirs d).2 d).2 =
      (RalphLock.release_lock dirs d).2 := by
  unfold RalphLock.release_lock
  by_cases hc : dirs.contains d = true
  · rw [if_pos hc]
    have hgone : (dirs.filter (fun x => !(x == d))).contains d = false := by
      rw [← Bool.not_eq_true]
      intro hx
      have hm := Merge.contains_true_iff.mp hx
      have := (List.mem_filter.mp hm).2
      simp at this
    constructor
    · rw [hc]
    · rw [if_neg (by simp [hgone])]
  · rw [if_neg hc]
    constructor
    · have hfalse : dirs.contains d = false := by
        rw [← Bool.not_eq_true]
        exact hc
      rw [hfalse]
    · rw [if_neg hc]

/-- C10 counterexample: with catalog `A`, `AB` (both dependency-free) and
state `A` in_progress / `AB` pending, the `ralph-scripts` copy lists
`["A", "AB"]` as claimable (jq `contains` accepts the in-progress `A`
because `"A"` is a substring of the pending id `"AB"`) while the `part_004`
copy lists `["AB"]`; their `claim_next_feature` selections differ likewise
(`A` versus `AB`), so the two near-duplicate copies are NOT equivalent. -/
theorem claim_copies_differ_cx :
    RalphClaim.get_claimable_features [⟨"A", [], 1⟩, ⟨"AB", [], 2⟩]
      [⟨"A", .in_progress, some "w", some 1, none, none, none, none⟩,
       ⟨"AB", .pending, none, none, none, none, none, none⟩] = ["A", "AB"] ∧
    P4.get_claimable_features [⟨"A", [], 1⟩, ⟨"AB", [], 2⟩]
      [⟨"A", .in_progress, some "w", some 1, none, none, none, none⟩,
       ⟨"AB", .pending, none, none, none, none, none, none⟩] = ["AB"] ∧
    (RalphClaim.claim_next_feature [⟨"A", [], 1⟩, ⟨"AB", [], 2⟩]
      [⟨"A", .in_progress, some "w", some 1, none, none, none, none⟩,
       ⟨"AB", .pending, none, none, none, none, none, none⟩]
      "w2" 5 "ralph").map Prod.fst = some "A" ∧
    (P4.claim_next_feature [⟨"A", [], 1⟩, ⟨"AB", [], 2⟩]
      [⟨"A", .in_progress, some "w", some 1, none, none, none, none⟩,
       ⟨"AB", .pending, none, none, none, none, none, none⟩]
      "w2" 5 "ralph").map Prod.fst = some "AB" := by
  refine ⟨by decide, by decide, by decide, by decide⟩

/-- C10 amended: the two copies agree exactly on the states where the
substring test is harmless — whenever every catalog feature whose id is a
substring of some pending id is itself pending (in particular whenever no
feature id is a proper substring of another pending id), both
`get_claimable_features` return the same id list and both
`claim_next_feature` behave identically; without that condition they
differ, as the counterexample shows. -/
theorem claim_copies_agree (prd : List FSpec) (st : List FState)
    (agent : String) (ts : Int) (pfx : String)
    (hs : (st.map (fun r => r.id)).Nodup)
    (H : ∀ f ∈ prd, jqArrContains (pendingIds st) f.id = true →
      statusOf st f.id = some .pending) :
    RalphClaim.get_claimable_features prd st = P4.get_claimable_features prd st ∧
    RalphClaim.claim_next_feature prd st agent ts pfx =
      P4.claim_next_feature prd st agent ts pfx := by
  have hiffall : ∀ f ∈ prd,
      (jqArrContains (pendingIds st) f.id = true ↔
        statusOf st f.id = some .pending) := by
    intro f hf
    constructor
    · exact H f hf
    · intro h
      exact jqArrContains_of_mem ((statusOf_pending_iff hs f.id).mp h)
  have hpred : ∀ f ∈ prd,
      (jqArrContains (pendingIds st) f.id &&
        depsMet f.depends_on (completedIds st)) =
      (jqArrIndex (pendingIds st) f.id &&
        depsMet f.depends_on (completedIds st)) := by
    intro f hf
    cases hc : jqArrContains (pendingIds st) f.id with
    | false =>
      have hno : f.id ∉ pendingIds st := by
        intro hm
        rw [jqArrContains_of_mem hm] at hc
        cases hc
      have hidx : jqArrIndex (pendingIds st) f.id = false := by
        rw [← Bool.not_eq_true]
        intro hx
        exact hno (Merge.contains_true_iff.mp hx)
      rw [hidx]
    | true =>
      have hm : f.id ∈ pendingIds st :=
        (statusOf_pending_iff hs f.id).mp ((hiffall f hf).mp hc)
      have hidx : jqArrIndex (pendingIds st) f.id = true :=
        Merge.contains_true_iff.mpr hm
      rw [hidx]
  have hcand : RalphClaim.claimCandidates prd st = P4.claimCandidates prd st := by
    unfold RalphClaim.claimCandidates P4.claimCandidates
    exact List.filter_congr hpred
  constructor
  · unfold RalphClaim.get_claimable_features P4.get_claimable_features
    rw [List.filter_map, List.filter_filter]
    unfold RalphClaim.claimCandidates
    apply congrArg
    apply List.filter_congr
    intro f hf
    simp only [Function.comp]
    by_cases hp : statusOf st f.id = some .pending
    · have hc1 : jqArrContains (pendingIds st) f.id = true := (hiffall f hf).mpr hp
      have hc2 : (statusOf st f.id == some FStatus.pending) = true := by
        simp [hp]
      have hc3 : jqArrIndex (completedIds st) f.id = false := by
        rw [← Bool.not_eq_true]
        intro hx
        exact statusOf_pending_not_completed hs hp (Merge.contains_true_iff.mp hx)
      rw [hc1, hc2, hc3]
      simp
    · have hc1 : jqArrContains (pendingIds st) f.id = false := by
        rw [← Bool.not_eq_true]
        intro hx
        exact hp ((hiffall f hf).mp hx)
      have hc2 : (statusOf st f.id == some FStatus.pending) = false := by
        simp [hp]
      rw [hc1, hc2]
      simp
  · have hsel : RalphClaim.claimNextSelect prd st = P4.claimNextSelect prd st := by
      unfold RalphClaim.claimNextSelect P4.claimNextSelect
      rw [hcand]
    unfold RalphClaim.claim_next_feature P4.claim_next_feature
    rw [hsel]

/-- Witness for C10's amended statement: on a catalog `x`, `y` with distinct
non-overlapping ids, both copies list the same claimable features and select
the same feature. -/
theorem claim_copies_agree_witness :
    (([⟨"x", .pending, none, none, none, none, none, none⟩,
       ⟨"y", .pending, none, none, none, none, none, none⟩] :
        List FState).map (fun r => r.id)).Nodup ∧
    (∀ f ∈ ([⟨"x", [], 2⟩, ⟨"y", [], 1⟩] : List FSpec),
      jqArrContains
        (pendingIds
          [⟨"x", .pending, none, none, none, none, none, none⟩,
           ⟨"y", .pending, none, none, none, none, none, none⟩]) f.id = true →
        statusOf
          [⟨"x", .pending, none, none, none, none, none, none⟩,
           ⟨"y", .pending, none, none, none, none, none, none⟩] f.id =
          some .pending) ∧
    (RalphClaim.get_claimable_features [⟨"x", [], 2⟩, ⟨"y", [], 1⟩]
        [⟨"x", .pending, none, none, none, none, none, none⟩,
         ⟨"y", .pending, none, none, none, none, none, none⟩] =
      P4.get_claimable_features [⟨"x", [], 2⟩, ⟨"y", [], 1⟩]
        [⟨"x", .pending, none, none, none, none, none, none⟩,
         ⟨"y", .pending, none, none, none, none, none, none⟩] ∧
    RalphClaim.claim_next_feature [⟨"x", [], 2⟩, ⟨"y", [], 1⟩]
        [⟨"x", .pending, none, none, none, none, none, none⟩,
         ⟨"y", .pending, none, none, none, none, none, none⟩] "w" 3 "ralph" =
      P4.claim_next_feature [⟨"x", [], 2⟩, ⟨"y", [], 1⟩]
        [⟨"x", .pending, none, none, none, none, none, none⟩,
         ⟨"y", .pending, none, none, none, none, none, none⟩] "w" 3 "ralph") :=
  ⟨by decide, by decide,
    claim_copies_agree [⟨"x", [], 2⟩, ⟨"y", [], 1⟩]
      [⟨"x", .pending, none, none, none, none, none, none⟩,
       ⟨"y", .pending, none, none, none, none, none, none⟩]
      "w" 3 "ralph" (by decide) (by decide)⟩

/-- C4 (code bug, spec scenario 6): on the fully cyclic completed document
`P ↔ Q`, the Kahn output is empty and its length 0 differs from the
completed count 2 — the cycle exists, witnessed by the `P → Q → P` loop in
the restricted dependency graph — yet `validate_merge_order` returns
success: `grep -c . || echo 0` corrupts the captured count to the two-line
"0\n0", the `[[ -ne ]]` comparison errors instead of detecting the
difference, and the function falls through to `return 0`.  The claim's
other conjuncts do hold of the program: the output length equals the
completed count iff the restricted graph is acyclic
(`acyclic_of_complete` / `complete_of_acyclic`) and every output id is
preceded by its in-set dependencies (`merge_order_topo`). -/
theorem merge_validate_cycle_bug_eval :
    Merge.calculate_merge_order
      [⟨"P", ["Q"], .completed⟩, ⟨"Q", ["P"], .completed⟩] = [] ∧
    (Merge.completedF
      [⟨"P", ["Q"], .completed⟩, ⟨"Q", ["P"], .completed⟩]).length = 2 ∧
    (∃ v, Relation.TransGen
      (Merge.Edge [⟨"P", ["Q"], .completed⟩, ⟨"Q", ["P"], .completed⟩]) v v) ∧
    Merge.validate_merge_order
      [⟨"P", ["Q"], .completed⟩, ⟨"Q", ["P"], .completed⟩] = true :=
  ⟨by decide, by decide,
    ⟨"P", Relation.TransGen.head
      (show Merge.Edge
          [⟨"P", ["Q"], .completed⟩, ⟨"Q", ["P"], .completed⟩] "P" "Q" from
        ⟨by decide, by decide⟩)
      (Relation.TransGen.single
        (show Merge.Edge
            [⟨"P", ["Q"], .completed⟩, ⟨"Q", ["P"], .completed⟩] "Q" "P" from
          ⟨by decide, by decide⟩))⟩,
    by decide⟩
